import Mathlib

/-!
Verification of the bibliographic reference consolidation engine
(ipynb_smart_exporter/utils/reference_manager.py).

Strings are modelled as lists of characters.  Each Python regex used by the
module is hand-compiled to a deterministic scanner that reproduces the
semantics of the concrete pattern (the patterns are simple enough that greedy
matching with the limited backtracking noted at each definition is exact).
-/

set_option maxRecDepth 20000

namespace RefMgr

/-- Python whitespace class for the ASCII range, as matched by the regex
class and by str.split / str.strip on the inputs considered here. -/
def isPySpace (c : Char) : Bool :=
  c = ' ' || c = '\t' || c = '\n' || c = '\r' || c = '\x0b' || c = '\x0c'

/-- Python str.rstrip(). -/
def pyRstrip (cs : List Char) : List Char :=
  ((cs.reverse).dropWhile isPySpace).reverse

/-- Python str.strip(). -/
def pyStrip (cs : List Char) : List Char :=
  pyRstrip (cs.dropWhile isPySpace)

/-- Python str.split() with no argument: split on whitespace runs,
discarding empty fields.  The accumulator holds the current word reversed. -/
def pySplitWsAux : List Char → List Char → List (List Char)
  | [], acc => if acc.isEmpty then [] else [acc.reverse]
  | c :: cs, acc =>
    if isPySpace c then
      if acc.isEmpty then pySplitWsAux cs [] else acc.reverse :: pySplitWsAux cs []
    else pySplitWsAux cs (c :: acc)

def pySplitWs (cs : List Char) : List (List Char) :=
  pySplitWsAux cs []

/-- Python sep.join(words) for a one-character separator. -/
def joinSep (sep : Char) : List (List Char) → List Char
  | [] => []
  | [w] => w
  | w :: v :: ws => w ++ sep :: joinSep sep (v :: ws)

/-- Python " ".join(words). -/
def joinWords (ws : List (List Char)) : List Char :=
  joinSep ' ' ws

/-- Match a literal; on success return the rest of the input. -/
def matchLit : List Char → List Char → Option (List Char)
  | [], cs => some cs
  | _ :: _, [] => none
  | l :: ls, c :: cs => if c = l then matchLit ls cs else none

def skipWs (cs : List Char) : List Char :=
  cs.dropWhile isPySpace

def litMarkerOpen : List Char := "<!--".data
def litPageBreak : List Char := "PAGE_BREAK".data
def litMarkerClose : List Char := "-->".data

/-- Match the page-break marker regex at the head of the input.  The
pattern is a literal, then a greedy whitespace run followed by a literal
starting with a non-whitespace character (twice), so matching is
deterministic.  Returns the rest after the match. -/
def matchMarker (cs : List Char) : Option (List Char) :=
  match matchLit litMarkerOpen cs with
  | none => none
  | some r1 =>
    match matchLit litPageBreak (skipWs r1) with
    | none => none
    | some r2 => matchLit litMarkerClose (skipWs r2)

/-- One pass of re.sub removing page-break markers: scan left to right,
drop each non-overlapping match, copy other characters.  Fuel-indexed;
every step consumes at least one character, so fuel equal to the input
length completes the scan. -/
def rmMarkersGo : Nat → List Char → List Char
  | 0, cs => cs
  | _ + 1, [] => []
  | fuel + 1, c :: cs =>
    match matchMarker (c :: cs) with
    | some rest => rmMarkersGo fuel rest
    | none => c :: rmMarkersGo fuel cs

def rmMarkers (cs : List Char) : List Char :=
  rmMarkersGo cs.length cs

/-- Whether a page-break-marker match starts at some position. -/
def hasMarkerGo : List Char → Bool
  | [] => false
  | c :: cs => (matchMarker (c :: cs)).isSome || hasMarkerGo cs

/-- One pass of re.sub collapsing dot runs to a single dot. -/
def collapseDotsAux : List Char → Bool → List Char
  | [], _ => []
  | c :: cs, prevDot =>
    if c = '.' then
      if prevDot then collapseDotsAux cs true
      else '.' :: collapseDotsAux cs true
    else c :: collapseDotsAux cs false

def collapseDots (cs : List Char) : List Char :=
  collapseDotsAux cs false

/-- The tail of the trailing-parenthetical pattern after the closing
parenthesis: whitespace-star, an optional dot, whitespace-star, then end of
string.  A string is in that language iff every character is whitespace or a
dot and there is at most one dot. -/
def parenTailOk (u : List Char) : Bool :=
  u.all (fun c => isPySpace c || c = '.') &&
    decide (u.countP (fun c => decide (c = '.')) ≤ 1)

/-- Whether the trailing-parenthetical pattern matches starting at this
suffix: a greedy whitespace run, an opening parenthesis, one or more
non-closing-parenthesis characters, a closing parenthesis, then the tail
pattern anchored at end of string. -/
def parenMatchAt (cs : List Char) : Bool :=
  match skipWs cs with
  | '(' :: r =>
    (match r.dropWhile (fun c => c ≠ ')') with
     | ')' :: u => !(r.takeWhile (fun c => c ≠ ')')).isEmpty && parenTailOk u
     | _ => false)
  | _ => false

/-- Leftmost start position of a trailing-parenthetical match. -/
def parenSearchGo : List Char → Nat → Option Nat
  | [], _ => none
  | c :: cs, pos =>
    if parenMatchAt (c :: cs) then some pos else parenSearchGo cs (pos + 1)

def parenSearch (cs : List Char) : Option Nat :=
  parenSearchGo cs 0

/-- re.sub of the trailing-parenthetical pattern with a period: the match
is anchored at end of string, so at most one replacement occurs. -/
def parenFix (cs : List Char) : List Char :=
  match parenSearch cs with
  | none => cs
  | some p => cs.take p ++ ['.']

/-- Reference.normalize_for_dedup: remove page-break markers, collapse a
trailing parenthetical note to a period, collapse dot runs, normalize
whitespace runs to single spaces, strip. -/
def normalize_for_dedup (text : List Char) : List Char :=
  pyStrip (joinWords (pySplitWs (collapseDots (parenFix (rmMarkers text)))))

example : normalize_for_dedup ("Foo. (see also appendix).".data) = "Foo.".data := by decide
example : normalize_for_dedup ("Foo.".data) = "Foo.".data := by decide
example : normalize_for_dedup ("a (b)..".data) = "a (b).".data := by decide
example : normalize_for_dedup ("a (b).".data) = "a.".data := by decide
example : normalize_for_dedup (" x <!-- PAGE_BREAK --> y \n z".data) = "x y z".data := by decide

/-! Definition scanner: the regex matching reference definitions.  The
pattern is a sequence of literals separated by greedy whitespace or digit
runs; each run is followed by a literal whose first character cannot occur
in the run, so matching is deterministic, except for the final part (a
greedy whitespace run then one or more non-newline characters) which
backtracks when the whitespace run reaches end of input. -/

def litAOpen : List Char := "<a".data
def litIdEq : List Char := "id=\"".data
def litRef : List Char := "ref".data
def litQuote : List Char := "\"".data
def litCloseA : List Char := "></a>[".data
def litRBrack : List Char := "]".data

structure DefMatch where
  refId : List Char
  localNum : Nat
  group3 : List Char
  rest : List Char
deriving DecidableEq, Repr

def digitVal (c : Char) : Nat := c.toNat - 48

/-- Python int() on a digit string. -/
def digitsToNat (ds : List Char) : Nat := ds.foldl (fun a c => a * 10 + digitVal c) 0

/-- Match the final part of the definition pattern: a greedy whitespace run,
then a group of one or more non-newline characters.  If the whitespace run
reaches end of input, the regex engine backtracks to the rightmost
non-newline character of the run (every character after it is a newline, so
the captured group is that single character). -/
def tailMatch (cs : List Char) : Option (List Char × List Char) :=
  match cs.drop (cs.takeWhile isPySpace).length with
  | c :: r =>
    some ((c :: r).takeWhile (fun d => d ≠ '\n'), (c :: r).dropWhile (fun d => d ≠ '\n'))
  | [] =>
    match ((cs.takeWhile isPySpace).reverse).dropWhile (fun d => d = '\n') with
    | [] => none
    | d :: _ => some ([d], ((cs.takeWhile isPySpace).reverse).takeWhile (fun e => e = '\n'))

/-- Match the definition-start regex at the head of the input. -/
def defMatchAt (cs : List Char) : Option DefMatch :=
  match matchLit litAOpen cs with
  | none => none
  | some r1 =>
    match r1 with
    | [] => none
    | c :: r2 =>
      if isPySpace c then
        match matchLit litIdEq (skipWs r2) with
        | none => none
        | some r3 =>
          match matchLit litRef r3 with
          | none => none
          | some r4 =>
            if (r4.takeWhile Char.isDigit).isEmpty then none else
            match matchLit litQuote (r4.drop (r4.takeWhile Char.isDigit).length) with
            | none => none
            | some r5 =>
              match matchLit litCloseA (skipWs r5) with
              | none => none
              | some r6 =>
                if (r6.takeWhile Char.isDigit).isEmpty then none else
                match matchLit litRBrack (r6.drop (r6.takeWhile Char.isDigit).length) with
                | none => none
                | some r7 =>
                  match tailMatch r7 with
                  | none => none
                  | some gr =>
                    some { refId := litRef ++ r4.takeWhile Char.isDigit,
                           localNum := digitsToNat (r6.takeWhile Char.isDigit),
                           group3 := gr.1, rest := gr.2 }
      else none

/-- Leftmost definition match: position of the match start, and the match. -/
def defSearchGo : List Char → Nat → Option (Nat × DefMatch)
  | [], _ => none
  | c :: cs, pos =>
    match defMatchAt (c :: cs) with
    | some m => some (pos, m)
    | none => defSearchGo cs (pos + 1)

def defSearch (cs : List Char) : Option (Nat × DefMatch) :=
  defSearchGo cs 0

/-- A bibliographic reference (class Reference).  The definition text is
stripped once when computed and again by the constructor; global numbers
are not stored but derived from the position in the global order, which is
how the Python code assigns them after the build pass. -/
structure Reference where
  local_id : List Char
  local_num : Nat
  definition : List Char
  cell_index : Nat
deriving DecidableEq, Repr

/-- The definition-extraction loop of extract_references_from_cell: iterate
the non-overlapping matches of the definition pattern; each definition text
is its first-line group plus the text up to the next match start (or end of
cell).  Fuel-indexed; every iteration consumes at least one character. -/
def extractDefsGo : Nat → Nat → List Char → List Reference
  | 0, _, _ => []
  | fuel + 1, cellIdx, cs =>
    match defSearch cs with
    | none => []
    | some (_, m) =>
      let nextStart :=
        match defSearch m.rest with
        | none => m.rest.length
        | some pm => pm.1
      { local_id := m.refId, local_num := m.localNum,
        definition := pyStrip (pyStrip (m.group3 ++ m.rest.take nextStart)),
        cell_index := cellIdx } :: extractDefsGo fuel cellIdx m.rest

def extract_defs (cellIdx : Nat) (cs : List Char) : List Reference :=
  extractDefsGo (cs.length + 1) cellIdx cs

/-! Python dict semantics for the association lists used by the module:
insertion preserves the position of an existing key and appends new keys. -/

def dictInsert [DecidableEq κ] (k : κ) (v : α) : List (κ × α) → List (κ × α)
  | [] => [(k, v)]
  | kv :: xs => if kv.1 = k then (kv.1, v) :: xs else kv :: dictInsert k v xs

def dictLookup [DecidableEq κ] (k : κ) : List (κ × α) → Option α
  | [] => none
  | kv :: xs => if kv.1 = k then some kv.2 else dictLookup k xs

/-- The defined_refs dict built by extract_references_from_cell, keyed by
anchor id: a later definition with the same anchor id overwrites the
earlier one in place. -/
def buildDefDict (ds : List Reference) : List (List Char × Reference) :=
  ds.foldl (fun d r => dictInsert r.local_id r d) []

/-- ReferenceManager state created by init: the three attributes. -/
structure RefState where
  unique_references : List (List Char × Reference)
  cell_local_refs : List ((Nat × Nat) × Reference)
  global_order : List Reference
deriving DecidableEq, Repr

def initState : RefState :=
  { unique_references := [], cell_local_refs := [], global_order := [] }

/-- The body of the per-definition loop of build_global_reference_map. -/
def processDef (st : RefState) (r : Reference) : RefState :=
  match dictLookup (normalize_for_dedup r.definition) st.unique_references with
  | some ex =>
    { st with cell_local_refs := dictInsert (r.cell_index, r.local_num) ex st.cell_local_refs }
  | none =>
    { unique_references := dictInsert (normalize_for_dedup r.definition) r st.unique_references,
      cell_local_refs := dictInsert (r.cell_index, r.local_num) r st.cell_local_refs,
      global_order := st.global_order ++ [r] }

/-- A notebook cell: markdown or anything else (only the cell type and the
source text participate in reference processing). -/
inductive Cell where
  | markdown (source : List Char)
  | code (source : List Char)
deriving DecidableEq, Repr

/-- The definitions a cell contributes to the build pass, in the iteration
order of the defined_refs dict. -/
def cellDefs (cellIdx : Nat) : Cell → List Reference
  | Cell.markdown src => (buildDefDict (extract_defs cellIdx src)).map Prod.snd
  | Cell.code _ => []

def build_global_reference_map (cells : List Cell) : RefState :=
  (cells.enum).foldl (fun st ic => (cellDefs ic.1 ic.2).foldl processDef st) initState

/-- The global number the build pass assigns to a reference: its 1-based
position in the global order (references stored in cell_local_refs are
always elements of the global order, and elements of the global order are
pairwise distinct, so this reproduces the mutated global_num field). -/
def refIndex (order : List Reference) (r : Reference) : Nat :=
  order.findIdx (fun x => decide (x = r))

def globalNum (st : RefState) (r : Reference) : Nat :=
  refIndex st.global_order r + 1

example :
    extract_defs 0 ("<a id=\"ref1\"></a>[1] Foo.\n<a id=\"ref2\"></a>[1] Bar.".data) =
      [{ local_id := "ref1".data, local_num := 1, definition := "Foo.".data, cell_index := 0 },
       { local_id := "ref2".data, local_num := 1, definition := "Bar.".data, cell_index := 0 }] := by
  decide

/-! Citation scanner: the citation regex is literals separated by greedy
digit runs, each followed by a literal starting with a non-digit, so
matching is fully deterministic. -/

def litCitOpen : List Char := "[[".data
def litCitMid : List Char := "]](#ref".data
def litCitClose : List Char := ")".data

structure CitMatch where
  localNum : Nat
  anchor : List Char
  matched : List Char
  rest : List Char
deriving DecidableEq, Repr

/-- Match the citation regex at the head of the input. -/
def citMatchAt (cs : List Char) : Option CitMatch :=
  match matchLit litCitOpen cs with
  | none => none
  | some r1 =>
    if (r1.takeWhile Char.isDigit).isEmpty then none else
    match matchLit litCitMid (r1.drop (r1.takeWhile Char.isDigit).length) with
    | none => none
    | some r2 =>
      if (r2.takeWhile Char.isDigit).isEmpty then none else
      match matchLit litCitClose (r2.drop (r2.takeWhile Char.isDigit).length) with
      | none => none
      | some r3 =>
        some { localNum := digitsToNat (r1.takeWhile Char.isDigit),
               anchor := litRef ++ r2.takeWhile Char.isDigit,
               matched := litCitOpen ++ r1.takeWhile Char.isDigit ++ litCitMid ++
                 r2.takeWhile Char.isDigit ++ litCitClose,
               rest := r3 }

def natDigits (n : Nat) : List Char := (Nat.repr n).data

/-- The replacement string built by replace_citation for a resolved
citation; it depends only on the global number, not on the anchor token of
the matched citation. -/
def citReplacement (g : Nat) : List Char :=
  litCitOpen ++ natDigits g ++ ("]](#global_ref".data) ++ natDigits g ++ litCitClose

/-- CITATION_PATTERN.sub(replace_citation, text): scan left to right; at
each match, emit the replacement (or the matched text itself when the
(cell, local number) key is absent) and continue after the match.
Fuel-indexed; every step consumes at least one character. -/
def updateCitationsGo : Nat → Nat → RefState → List Char → List Char
  | 0, _, _, cs => cs
  | _ + 1, _, _, [] => []
  | fuel + 1, cellIdx, st, c :: cs =>
    match citMatchAt (c :: cs) with
    | some m =>
      (match dictLookup (cellIdx, m.localNum) st.cell_local_refs with
       | none => m.matched ++ updateCitationsGo fuel cellIdx st m.rest
       | some ref => citReplacement (globalNum st ref) ++ updateCitationsGo fuel cellIdx st m.rest)
    | none => c :: updateCitationsGo fuel cellIdx st cs

def update_citations_in_text (st : RefState) (cellIdx : Nat) (cs : List Char) : List Char :=
  updateCitationsGo cs.length cellIdx st cs

/-- Decomposition of a text into the segments seen by the citation scan:
unmatched characters and citation matches.  Mirrors the recursion of
updateCitationsGo exactly. -/
inductive CSeg where
  | lit (c : Char)
  | cite (m : CitMatch)
deriving DecidableEq, Repr

def csegRender : CSeg → List Char
  | CSeg.lit c => [c]
  | CSeg.cite m => m.matched

/-- What the rewrite emits for one segment. -/
def csegUpdate (cellIdx : Nat) (st : RefState) : CSeg → List Char
  | CSeg.lit c => [c]
  | CSeg.cite m =>
    match dictLookup (cellIdx, m.localNum) st.cell_local_refs with
    | none => m.matched
    | some ref => citReplacement (globalNum st ref)

def citSegsGo : Nat → List Char → List CSeg
  | 0, cs => cs.map CSeg.lit
  | _ + 1, [] => []
  | fuel + 1, c :: cs =>
    match citMatchAt (c :: cs) with
    | some m => CSeg.cite m :: citSegsGo fuel m.rest
    | none => CSeg.lit c :: citSegsGo fuel cs

def citSegs (cs : List Char) : List CSeg :=
  citSegsGo cs.length cs

def csegIsCite : CSeg → Bool
  | CSeg.lit _ => false
  | CSeg.cite _ => true

/-! The reference-section separator regex (multiline): a line start, a
greedy whitespace run, three dashes, whitespace containing a newline, the
bold header, optional whitespace, the colon and closing stars, whitespace
containing a newline.  A subpattern of the shape whitespace-star newline
whitespace-star followed by a non-whitespace literal succeeds exactly when
the maximal whitespace run contains a newline and the literal follows the
run, independently of which newline the engine settles on. -/

def litDashes : List Char := "---".data
def litRefsHdr : List Char := "**Références".data
def litColonStars : List Char := ":**".data

def wsRunHasNl (cs : List Char) : Bool :=
  (cs.takeWhile isPySpace).any (fun c => c = '\n')

def sepMatchAt (cs : List Char) : Bool :=
  match matchLit litDashes (skipWs cs) with
  | none => false
  | some r2 =>
    wsRunHasNl r2 &&
      (match matchLit litRefsHdr (skipWs r2) with
       | none => false
       | some r5 =>
         match matchLit litColonStars (skipWs r5) with
         | none => false
         | some r7 => wsRunHasNl r7)

/-- Leftmost separator match start; the multiline anchor restricts match
starts to position zero and positions following a newline. -/
def sepSearchGo : List Char → Nat → Bool → Option Nat
  | [], _, _ => none
  | c :: cs, pos, atStart =>
    if atStart && sepMatchAt (c :: cs) then some pos
    else sepSearchGo cs (pos + 1) (decide (c = '\n'))

def sepSearch (cs : List Char) : Option Nat :=
  sepSearchGo cs 0 true

/-- The first definition of remove_reference_section (lines 236-252), dead
code in the source module because the second definition below shadows it in
the class body. -/
def remove_reference_section_v1 (cs : List Char) : List Char :=
  match sepSearch cs with
  | none => cs
  | some p => pyRstrip (cs.take p)

/-- Python text.split applied with a newline separator. -/
def splitNl : List Char → List (List Char)
  | [] => [[]]
  | c :: cs =>
    if c = '\n' then [] :: splitNl cs
    else
      match splitNl cs with
      | [] => [[c]]
      | w :: ws => (c :: w) :: ws

def joinNl (ls : List (List Char)) : List Char :=
  joinSep '\n' ls

/-- Strategy 2 of the second remove_reference_section: find the first line
that strips to three dashes and is followed within the next five lines
(itself included) by a definition match; truncate before that line.  The
source branches on a preceding page-break marker, but both branches return
the same value. -/
def strat2Go (lines : List (List Char)) : List (List Char) → Nat → Option (List Char)
  | [], _ => none
  | l :: rest, i =>
    if pyStrip l = litDashes then
      if (defSearch (joinNl ((l :: rest).take 5))).isSome then
        some (pyRstrip (joinNl (lines.take i)))
      else strat2Go lines rest (i + 1)
    else strat2Go lines rest (i + 1)

/-- The second definition of remove_reference_section (lines 287-343), the
one every method call dispatches to.  In strategies 1 and 3 the source
branches on a preceding page-break marker, but both branches return the
truncated prefix right-stripped. -/
def remove_reference_section (cs : List Char) : List Char :=
  match sepSearch cs with
  | some p => pyRstrip (cs.take p)
  | none =>
    match strat2Go (splitNl cs) (splitNl cs) 0 with
    | some res => res
    | none =>
      match defSearch cs with
      | some pm => pyRstrip (cs.take pm.1)
      | none => cs

def process_markdown_cell (st : RefState) (cellIdx : Nat) (src : List Char) : List Char :=
  remove_reference_section (update_citations_in_text st cellIdx src)

def refEntry (g : Nat) (definition : List Char) : List Char :=
  ("<a id=\"global_ref".data) ++ natDigits g ++ ("\"></a>**[".data) ++ natDigits g ++
    ("]** ".data) ++ definition ++ ("\n\n".data)

def litSectionHdr : List Char := "\n\n---\n\n### Références\n\n".data

def generate_references_section (st : RefState) : List Char :=
  if st.global_order.isEmpty then [] else
    litSectionHdr ++
      (st.global_order.enum).foldl (fun acc kr => acc ++ refEntry (kr.1 + 1) kr.2.definition) []

/-- The per-cell rewriting pass of process_notebook. -/
def processCells (cells : List Cell) : List Cell :=
  (cells.enum).map (fun ic =>
    match ic.2 with
    | Cell.markdown src =>
      Cell.markdown (process_markdown_cell (build_global_reference_map cells) ic.1 src)
    | c => c)

/-- process_notebook: build the map, rewrite every markdown cell in place,
and append one references cell when the global order is non-empty. -/
def process_notebook (cells : List Cell) : List Cell :=
  if (build_global_reference_map cells).global_order.isEmpty then processCells cells
  else processCells cells ++
    [Cell.markdown (generate_references_section (build_global_reference_map cells))]

/-- The instance attributes created by ReferenceManager.init: exactly
unique_references, cell_local_refs and global_order; no other method of the
module assigns an attribute on self. -/
def initAttrs : List (List Char) :=
  [("unique_references".data), ("cell_local_refs".data), ("global_order".data)]

/-- get_local_to_global_map (lines 214-234) models Python attribute lookup:
its first step reads self.cell_references, so on any instance whose
attribute set is the one init creates it raises AttributeError.  The success
branch is unreachable for such instances and its value is not modelled. -/
def get_local_to_global_map (attrs : List (List Char)) (_cellIndex : Nat) :
    Except (List Char) (List (Nat × Nat)) :=
  if ("cell_references".data) ∈ attrs then Except.ok []
  else Except.error ("AttributeError".data)

/-- The definitions of the whole document in spec order: cells by index,
and within a cell the definition matches in text-position order (this is
the raw match list, before the defined_refs dict collapses duplicate
anchor ids). -/
def rawCellDefs (cells : List Cell) : List Reference :=
  ((cells.enum).map (fun ic =>
    match ic.2 with
    | Cell.markdown src => extract_defs ic.1 src
    | Cell.code _ => [])).flatten

/-- Modelled from the spec: the sequence of unique references in order of
first appearance, deduplicating by normalized definition text and keeping
the first occurrence. -/
def specDedupFirst : List Reference → List Reference → List Reference
  | acc, [] => acc
  | acc, r :: rs =>
    if acc.any (fun x =>
        decide (normalize_for_dedup x.definition = normalize_for_dedup r.definition))
    then specDedupFirst acc rs
    else specDedupFirst (acc ++ [r]) rs

def specFirstAppearanceOrder (cells : List Cell) : List Reference :=
  specDedupFirst [] (rawCellDefs cells)

/-- Normalized definition text of a reference (its deduplication key). -/
def nrm (r : Reference) : List Char := normalize_for_dedup r.definition

/-- The citation-lookup key under which the build pass files a definition. -/
def refKey (r : Reference) : Nat × Nat := (r.cell_index, r.local_num)

/-- All definitions processed by the build pass, flattened in processing
order (cells by index, and within a cell the defined_refs dict order). -/
def allCellDefs (cells : List Cell) : List Reference :=
  ((cells.enum).map (fun ic => cellDefs ic.1 ic.2)).flatten

/-- Whether a cell's definition anchor ids are pairwise distinct. -/
def cellIdsOk (ic : Nat × Cell) : Bool :=
  match ic.2 with
  | Cell.markdown src => decide (((extract_defs ic.1 src).map Reference.local_id).Nodup)
  | Cell.code _ => true

/-- Whether a cell's definition local numbers are pairwise distinct. -/
def cellNumsOk (ic : Nat × Cell) : Bool :=
  match ic.2 with
  | Cell.markdown src => decide (((extract_defs ic.1 src).map Reference.local_num).Nodup)
  | Cell.code _ => true

/-- The two definitions of the dedup scenario: equal normalized texts
declared in different cells. -/
def c1d1 : Reference :=
  { local_id := "ref1".data, local_num := 1,
    definition := "Foo. (see also appendix).".data, cell_index := 0 }

def c1d2 : Reference :=
  { local_id := "ref1".data, local_num := 1, definition := "Foo.".data, cell_index := 1 }

/-! Concrete documents used by the theorems below. -/

def c3src : List Char := "Voir [[2]](#ref9).\n<a id=\"ref2\"></a>[2] Foo.".data
def c3cells : List Cell := [Cell.markdown c3src]

def c7text : List Char := "intro <a id=\"ref1\"></a>[1] Foo.".data

def c8text : List Char := "x\n<a id=\"ref1\"></a>[1] Foo.".data

def src5 : List Char := "A [[1]](#ref1) B [[5]](#ref5)\n<a id=\"ref1\"></a>[1] Foo.".data
def st5 : RefState := build_global_reference_map [Cell.markdown src5]
def c5seg1 : List CSeg := (citSegs src5).take 6
def c5seg2 : List CSeg := (citSegs src5).drop 7
def c5mid : CitMatch :=
  { localNum := 5, anchor := "ref5".data, matched := "[[5]](#ref5)".data,
    rest := "\n<a id=\"ref1\"></a>[1] Foo.".data }

def cexC1cells : List Cell :=
  [Cell.markdown ("<a id=\"ref1\"></a>[1] Foo.\n<a id=\"ref2\"></a>[1] Bar.".data),
   Cell.markdown ("<a id=\"ref1\"></a>[1] Foo.".data)]

def c1wcells : List Cell :=
  [Cell.markdown ("<a id=\"ref1\"></a>[1] Foo. (see also appendix).".data),
   Cell.markdown ("<a id=\"ref1\"></a>[1] Foo.".data)]

def cexC2cells : List Cell :=
  [Cell.markdown
    ("<a id=\"ref1\"></a>[1] Alpha.\n<a id=\"ref2\"></a>[2] Beta.\n<a id=\"ref1\"></a>[3] Gamma.".data)]

def cexC6cells : List Cell := [Cell.markdown ("A\n---\n**Références :**\nB".data)]

def c6wcells : List Cell :=
  [Cell.markdown ("Juste du texte.\n\nEncore.".data), Cell.code ("x = 1".data)]

/-- A cell on which the rewriting passes have nothing to act: no citation
match, no definition match, no separator match. -/
def cellClean : Cell → Bool
  | Cell.markdown src =>
      ((citSegs src).all (fun s => !csegIsCite s)) && (defSearch src).isNone &&
        (sepSearch src).isNone
  | Cell.code _ => true

/-- C10: on a ReferenceManager whose attributes are exactly the ones init
creates, get_local_to_global_map reads the missing attribute
cell_references on its first step and raises AttributeError for every cell
index; it can never return a mapping. -/
theorem C10_get_local_to_global_map_raises (cellIndex : Nat) :
    get_local_to_global_map initAttrs cellIndex = Except.error ("AttributeError".data) := by
  rfl

/-- C8: the module's two definitions of remove_reference_section are not
extensionally equal — on the text "x" followed by a newline and a bare
definition, the first (separator-only) version returns the text unchanged
while the second truncates at the definition — and every call on an
instance dispatches to the second definition (process_markdown_cell is
defined through it, mirroring the Python class body in which the second
def shadows the first). -/
theorem C8_two_remove_definitions_differ :
    remove_reference_section_v1 c8text ≠ remove_reference_section c8text ∧
    (∀ st cellIdx src, process_markdown_cell st cellIdx src =
      remove_reference_section (update_citations_in_text st cellIdx src)) :=
  ⟨by decide, fun _ _ _ => rfl⟩

/-- C7 counterexample: the definition-start regex has no line anchor, so
the definition markup occurring mid-line (at position 6 of a text whose
first six characters contain no newline) is matched and extracted,
contradicting the claim that detection only fires at the start of a line. -/
theorem C7_counterexample :
    defSearch c7text = some (6,
      { refId := "ref1".data, localNum := 1, group3 := "Foo.".data, rest := [] }) ∧
    (c7text.take 6).all (fun c => c ≠ '\n') ∧
    extract_defs 0 c7text =
      [{ local_id := "ref1".data, local_num := 1, definition := "Foo.".data, cell_index := 0 }] := by
  decide

/-- C7 amended: definition detection fires wherever the markup occurs in
the cell text, not only at the start of a line; a mid-line occurrence is
extracted exactly like a line-start occurrence. -/
theorem C7_amended_unanchored_detection :
    extract_defs 0 ("intro <a id=\"ref9\"></a>[4] Bar. suite".data) =
      [{ local_id := "ref9".data, local_num := 4, definition := "Bar. suite".data,
         cell_index := 0 }] ∧
    extract_defs 0 ("<a id=\"ref9\"></a>[4] Bar. suite".data) =
      [{ local_id := "ref9".data, local_num := 4, definition := "Bar. suite".data,
         cell_index := 0 }] := by
  decide

/-! Analysis predicates used by the idempotence development. -/

/-- A field produced by str.split(): non-empty and whitespace-free. -/
def wordOk (w : List Char) : Bool :=
  !w.isEmpty && w.all (fun c => !isPySpace c)

/-- No two adjacent periods. -/
def noAdjDots : List Char → Bool
  | [] => true
  | [_] => true
  | a :: b :: t => (!(a = '.' && b = '.')) && noAdjDots (b :: t)

def headNotDot : List Char → Bool
  | [] => true
  | c :: _ => decide (c ≠ '.')

/-- The previous-character-was-a-dot flag of the dot-collapsing scan after
processing a chunk. -/
def endFlag : List Char → Bool → Bool
  | [], b => b
  | c :: cs, _ => endFlag cs (decide (c = '.'))

/-! Lemmas about stripping. -/

theorem dropWhile_append_all {α : Type} {p : α → Bool} {a b : List α} (h : a.all p) :
    List.dropWhile p (a ++ b) = List.dropWhile p b := by
  induction a with
  | nil => rfl
  | cons x xs ih =>
    simp only [List.all_cons, Bool.and_eq_true] at h
    simp [List.dropWhile_cons, h.1, ih h.2]

theorem pyRstrip_append_spaces {xs ws : List Char} (h : ws.all isPySpace) :
    pyRstrip (xs ++ ws) = pyRstrip xs := by
  unfold pyRstrip
  rw [List.reverse_append, dropWhile_append_all (by simpa using h)]

theorem pyRstrip_append_nonspace {xs : List Char} {c : Char} (h : isPySpace c = false) :
    pyRstrip (xs ++ [c]) = xs ++ [c] := by
  unfold pyRstrip
  simp [List.reverse_append, List.dropWhile_cons, h]

def c9text : List Char :=
  "Body\n<!-- PAGE_BREAK -->\n---\n**Références :**\n<a id=\"ref1\"></a>[1] Foo.".data

/-- C9: when the text before the separator match ends with a page-break
marker followed only by whitespace, remove_reference_section truncates at
the separator start and right-strips, which keeps the marker at the end of
the remaining text. -/
theorem C9_page_break_preserved (t B M w1 w2 W : List Char) (p : Nat)
    (hsep : sepSearch t = some p)
    (hsplit : t.take p = B ++ M ++ W)
    (hM : M = litMarkerOpen ++ w1 ++ litPageBreak ++ w2 ++ litMarkerClose)
    (_hw1 : w1.all isPySpace = true) (_hw2 : w2.all isPySpace = true)
    (hW : W.all isPySpace = true) :
    remove_reference_section t = B ++ M := by
  have hclose : litMarkerClose = ['-', '-', '>'] := rfl
  unfold remove_reference_section
  rw [hsep]
  show pyRstrip (List.take p t) = B ++ M
  rw [hsplit, pyRstrip_append_spaces hW]
  have hdec : B ++ M = (B ++ litMarkerOpen ++ w1 ++ litPageBreak ++ w2 ++ ['-', '-']) ++ ['>'] := by
    rw [hM, hclose]; simp
  rw [hdec, pyRstrip_append_nonspace (by decide)]

/-- C9 witness: a concrete cell with a page-break marker immediately before
the separator keeps the marker after removal. -/
theorem C9_witness :
    remove_reference_section c9text = ("Body\n<!-- PAGE_BREAK -->".data) :=
  C9_page_break_preserved c9text ("Body\n".data) ("<!-- PAGE_BREAK -->".data)
    [' '] [' '] ['\n'] 25 (by decide) (by decide) (by decide) (by decide) (by decide)
    (by decide)

/-- C3: citation rewriting joins a citation to its definition by the pair
of cell index and visible bracket number, not by the anchor token: in a
cell whose citation is written with anchor token ref9 while the definition
declares anchor ref2, the citation resolves through local number 2 and is
rewritten to the canonical global form. -/
theorem C3_citation_join_by_local_number :
    update_citations_in_text (build_global_reference_map c3cells) 0 c3src =
      ("Voir [[1]](#global_ref1).\n<a id=\"ref2\"></a>[2] Foo.".data) ∧
    dictLookup (0, 2) (build_global_reference_map c3cells).cell_local_refs =
      some { local_id := "ref2".data, local_num := 2, definition := "Foo.".data,
             cell_index := 0 } := by
  decide

/-! Lemmas about whitespace splitting and joining. -/

theorem pySplitWsAux_nil (acc : List Char) :
    pySplitWsAux [] acc = if acc.isEmpty then [] else [acc.reverse] := rfl

theorem pySplitWsAux_cons (c : Char) (cs acc : List Char) :
    pySplitWsAux (c :: cs) acc =
      if isPySpace c then
        if acc.isEmpty then pySplitWsAux cs [] else acc.reverse :: pySplitWsAux cs []
      else pySplitWsAux cs (c :: acc) := rfl

theorem isEmpty_false_of_ne_nil {l : List Char} (h : l ≠ []) : l.isEmpty = false := by
  cases l with
  | nil => exact absurd rfl h
  | cons a t => rfl

theorem wordOk_rev (acc : List Char) (h0 : ¬ acc.isEmpty = true)
    (h1 : acc.all (fun c => !isPySpace c) = true) : wordOk acc.reverse = true := by
  have h2 : acc.reverse ≠ [] := by
    intro h
    apply h0
    rw [List.reverse_eq_nil_iff] at h
    rw [h]; rfl
  simp [wordOk, List.all_reverse, h1, isEmpty_false_of_ne_nil h2]

theorem pySplitWsAux_wordOk (cs : List Char) :
    ∀ acc, acc.all (fun c => !isPySpace c) = true →
      ∀ w ∈ pySplitWsAux cs acc, wordOk w = true := by
  induction cs with
  | nil =>
    intro acc hacc w hw
    rw [pySplitWsAux_nil] at hw
    by_cases h : acc.isEmpty = true
    · rw [if_pos h] at hw
      exact absurd hw (List.not_mem_nil w)
    · rw [if_neg h] at hw
      rw [List.mem_singleton.mp hw]
      exact wordOk_rev acc h hacc
  | cons c cs ih =>
    intro acc hacc w hw
    rw [pySplitWsAux_cons] at hw
    by_cases hsp : isPySpace c = true
    · rw [if_pos hsp] at hw
      by_cases hacc0 : acc.isEmpty = true
      · rw [if_pos hacc0] at hw
        exact ih [] rfl w hw
      · rw [if_neg hacc0] at hw
        rcases List.mem_cons.mp hw with h | h
        · rw [h]; exact wordOk_rev acc hacc0 hacc
        · exact ih [] rfl w h
    · rw [if_neg hsp] at hw
      refine ih (c :: acc) ?_ w hw
      simp only [List.all_cons, Bool.and_eq_true, Bool.not_eq_true']
      exact ⟨by simpa using hsp, hacc⟩

theorem pySplitWs_wordOk (cs : List Char) : ∀ w ∈ pySplitWs cs, wordOk w = true :=
  pySplitWsAux_wordOk cs [] rfl

theorem pySplitWsAux_chunk (w : List Char) :
    ∀ t acc, w.all (fun c => !isPySpace c) = true →
      pySplitWsAux (w ++ t) acc = pySplitWsAux t (w.reverse ++ acc) := by
  induction w with
  | nil => intro t acc _; rfl
  | cons c w ih =>
    intro t acc h
    simp only [List.all_cons, Bool.and_eq_true, Bool.not_eq_true'] at h
    calc pySplitWsAux ((c :: w) ++ t) acc
        = pySplitWsAux (w ++ t) (c :: acc) := by
          rw [List.cons_append, pySplitWsAux_cons, if_neg (by simp [h.1])]
      _ = pySplitWsAux t (w.reverse ++ (c :: acc)) := ih t (c :: acc) h.2
      _ = pySplitWsAux t ((c :: w).reverse ++ acc) := by
          congr 1
          simp [List.append_assoc]

theorem joinSep_cons₂ (sep : Char) (w v : List Char) (ws : List (List Char)) :
    joinSep sep (w :: v :: ws) = w ++ sep :: joinSep sep (v :: ws) := rfl

theorem ne_nil_of_not_isEmpty {l : List Char} (h : ¬ l.isEmpty = true) : l ≠ [] :=
  fun hn => h (by rw [hn]; rfl)

theorem pySplitWs_joinWords (ws : List (List Char)) (h : ∀ w ∈ ws, wordOk w = true) :
    pySplitWs (joinWords ws) = ws := by
  induction ws with
  | nil => rfl
  | cons w ws ih =>
    have hw := h w (List.mem_cons_self w ws)
    have hwne : ¬ w.isEmpty = true := by
      simp only [wordOk, Bool.and_eq_true, Bool.not_eq_true'] at hw
      simp [hw.1]
    have hwall : w.all (fun c => !isPySpace c) = true := by
      simp only [wordOk, Bool.and_eq_true] at hw
      exact hw.2
    have hrevne : ¬ (w.reverse).isEmpty = true := by
      intro hr
      apply hwne
      rw [List.isEmpty_iff] at hr ⊢
      rw [List.reverse_eq_nil_iff] at hr
      exact hr
    cases ws with
    | nil =>
      show pySplitWsAux (joinSep ' ' [w]) [] = [w]
      have hj : joinSep ' ' [w] = w ++ [] := by simp [joinSep]
      rw [hj, pySplitWsAux_chunk w [] [] hwall, pySplitWsAux_nil, List.append_nil,
        if_neg hrevne, List.reverse_reverse]
    | cons v ws2 =>
      show pySplitWsAux (joinSep ' ' (w :: v :: ws2)) [] = w :: v :: ws2
      rw [joinSep_cons₂, pySplitWsAux_chunk w _ [] hwall, pySplitWsAux_cons,
        if_pos (by decide : isPySpace ' ' = true), List.append_nil, if_neg hrevne,
        List.reverse_reverse]
      congr 1
      exact ih (fun x hx => h x (List.mem_cons_of_mem w hx))

theorem joinWords_ends (ws : List (List Char)) (h : ∀ w ∈ ws, wordOk w = true)
    (hne : ws ≠ []) :
    ∃ xs c, joinWords ws = xs ++ [c] ∧ isPySpace c = false := by
  induction ws with
  | nil => exact absurd rfl hne
  | cons w ws ih =>
    cases ws with
    | nil =>
      have hw := h w (List.mem_cons_self w [])
      have hwne : w ≠ [] := by
        refine ne_nil_of_not_isEmpty ?_
        simp only [wordOk, Bool.and_eq_true, Bool.not_eq_true'] at hw
        simp [hw.1]
      have hwall : w.all (fun c => !isPySpace c) = true := by
        simp only [wordOk, Bool.and_eq_true] at hw
        exact hw.2
      refine ⟨w.dropLast, w.getLast hwne, ?_, ?_⟩
      · show w = w.dropLast ++ [w.getLast hwne]
        exact (List.dropLast_append_getLast hwne).symm
      · have := List.all_eq_true.mp hwall (w.getLast hwne) (List.getLast_mem hwne)
        simpa using this
    | cons v ws2 =>
      obtain ⟨xs, c, hx, hc⟩ :=
        ih (fun x hx => h x (List.mem_cons_of_mem w hx)) (List.cons_ne_nil v ws2)
      refine ⟨w ++ ' ' :: xs, c, ?_, hc⟩
      show joinSep ' ' (w :: v :: ws2) = (w ++ ' ' :: xs) ++ [c]
      rw [joinSep_cons₂]
      have hx2 : joinSep ' ' (v :: ws2) = xs ++ [c] := hx
      rw [hx2]
      simp

theorem pyStrip_joinWords (ws : List (List Char)) (h : ∀ w ∈ ws, wordOk w = true) :
    pyStrip (joinWords ws) = joinWords ws := by
  cases ws with
  | nil => rfl
  | cons w ws =>
    have hw := h w (List.mem_cons_self w ws)
    obtain ⟨c, w2, rfl⟩ : ∃ c w2, w = c :: w2 := by
      cases w with
      | nil => simp [wordOk] at hw
      | cons a t => exact ⟨a, t, rfl⟩
    have hc : isPySpace c = false := by
      simp only [wordOk, List.all_cons, Bool.and_eq_true, Bool.not_eq_true'] at hw
      exact hw.2.1
    obtain ⟨X, hX⟩ : ∃ X, joinWords ((c :: w2) :: ws) = c :: X := by
      cases ws with
      | nil => exact ⟨w2, rfl⟩
      | cons v ws2 => exact ⟨w2 ++ ' ' :: joinSep ' ' (v :: ws2), rfl⟩
    obtain ⟨xs, d, hxd, hd⟩ := joinWords_ends _ h (List.cons_ne_nil _ _)
    unfold pyStrip
    rw [hX, List.dropWhile_cons, if_neg (by simp [hc]), ← hX, hxd,
      pyRstrip_append_nonspace hd]

/-! Lemmas about dot collapsing. -/

theorem collapseDotsAux_cons (c : Char) (cs : List Char) (b : Bool) :
    collapseDotsAux (c :: cs) b =
      if c = '.' then
        (if b then collapseDotsAux cs true else '.' :: collapseDotsAux cs true)
      else c :: collapseDotsAux cs false := rfl

theorem endFlag_cons (c : Char) (cs : List Char) (b : Bool) :
    endFlag (c :: cs) b = endFlag cs (decide (c = '.')) := rfl

theorem collapseDotsAux_append (xs ys : List Char) :
    ∀ b, collapseDotsAux (xs ++ ys) b =
      collapseDotsAux xs b ++ collapseDotsAux ys (endFlag xs b) := by
  induction xs with
  | nil => intro b; rfl
  | cons c xs ih =>
    intro b
    rw [List.cons_append, collapseDotsAux_cons, collapseDotsAux_cons c xs b, endFlag_cons]
    by_cases hc : c = '.'
    · rw [if_pos hc, if_pos hc]
      have hdec : decide (c = '.') = true := by simp [hc]
      rw [hdec]
      cases b with
      | false => rw [if_neg (by simp), if_neg (by simp), List.cons_append, ih true]
      | true => rw [if_pos rfl, if_pos rfl, ih true]
    · have hdec : decide (c = '.') = false := by simp [hc]
      rw [if_neg hc, if_neg hc, hdec, List.cons_append, ih false]

theorem bool_and_split {a b : Bool} (h : (a && b) = true) : a = true ∧ b = true := by
  simp only [Bool.and_eq_true] at h
  exact h

theorem bool_and_join {a b : Bool} (h1 : a = true) (h2 : b = true) : (a && b) = true := by
  simp [h1, h2]

theorem noAdjDots_cons_cons (a b : Char) (t : List Char) :
    noAdjDots (a :: b :: t) = ((!(a = '.' && b = '.')) && noAdjDots (b :: t)) := rfl

theorem noAdjDots_tail {c : Char} {cs : List Char} (h : noAdjDots (c :: cs) = true) :
    noAdjDots cs = true := by
  cases cs with
  | nil => rfl
  | cons b t => exact (bool_and_split h).2

theorem noAdjDots_cons_of_headNotDot (a : Char) (l : List Char)
    (h1 : headNotDot l = true) (h2 : noAdjDots l = true) : noAdjDots (a :: l) = true := by
  cases l with
  | nil => rfl
  | cons b t =>
    refine bool_and_join ?_ h2
    simp only [headNotDot, decide_eq_true_eq] at h1
    simp [h1]

theorem noAdjDots_cons_of_ne (a : Char) (l : List Char) (ha : ¬ a = '.')
    (h2 : noAdjDots l = true) : noAdjDots (a :: l) = true := by
  cases l with
  | nil => rfl
  | cons b t => exact bool_and_join (by simp [ha]) h2

theorem collapseDotsAux_noAdj (x : List Char) :
    noAdjDots (collapseDotsAux x false) = true ∧ noAdjDots (collapseDotsAux x true) = true ∧
      headNotDot (collapseDotsAux x true) = true := by
  induction x with
  | nil => exact ⟨rfl, rfl, rfl⟩
  | cons c cs ih =>
    by_cases hc : c = '.'
    · subst hc
      have e1 : collapseDotsAux ('.' :: cs) false = '.' :: collapseDotsAux cs true := rfl
      have e2 : collapseDotsAux ('.' :: cs) true = collapseDotsAux cs true := rfl
      refine ⟨?_, ?_, ?_⟩
      · rw [e1]; exact noAdjDots_cons_of_headNotDot _ _ ih.2.2 ih.2.1
      · rw [e2]; exact ih.2.1
      · rw [e2]; exact ih.2.2
    · have e1 : collapseDotsAux (c :: cs) false = c :: collapseDotsAux cs false := by
        rw [collapseDotsAux_cons, if_neg hc]
      have e2 : collapseDotsAux (c :: cs) true = c :: collapseDotsAux cs false := by
        rw [collapseDotsAux_cons, if_neg hc]
      refine ⟨?_, ?_, ?_⟩
      · rw [e1]; exact noAdjDots_cons_of_ne c _ hc ih.1
      · rw [e2]; exact noAdjDots_cons_of_ne c _ hc ih.1
      · rw [e2]; simp [headNotDot, hc]

theorem collapseDotsAux_self (x : List Char) :
    noAdjDots x = true →
      collapseDotsAux x false = x ∧ (headNotDot x = true → collapseDotsAux x true = x) := by
  induction x with
  | nil => intro _; exact ⟨rfl, fun _ => rfl⟩
  | cons c cs ih =>
    intro h
    obtain ⟨ih1, ih2⟩ := ih (noAdjDots_tail h)
    by_cases hc : c = '.'
    · subst hc
      refine ⟨?_, ?_⟩
      · have e : collapseDotsAux ('.' :: cs) false = '.' :: collapseDotsAux cs true := rfl
        rw [e]
        congr 1
        cases cs with
        | nil => rfl
        | cons b t =>
          apply ih2
          have h1 := (bool_and_split h).1
          simp only [Bool.not_eq_true', Bool.and_eq_false_iff, decide_eq_false_iff_not,
            decide_eq_true_eq] at h1
          rcases h1 with h1 | h1
          · exact absurd trivial h1
          · simp [headNotDot, h1]
      · intro hh
        simp [headNotDot] at hh
    · have e1 : collapseDotsAux (c :: cs) false = c :: collapseDotsAux cs false := by
        rw [collapseDotsAux_cons, if_neg hc]
      have e2 : collapseDotsAux (c :: cs) true = c :: collapseDotsAux cs false := by
        rw [collapseDotsAux_cons, if_neg hc]
      exact ⟨by rw [e1, ih1], fun _ => by rw [e2, ih1]⟩

theorem collapseDotsAux_space (t : List Char) (b : Bool) :
    collapseDotsAux (' ' :: t) b = ' ' :: collapseDotsAux t false := by
  rw [collapseDotsAux_cons, if_neg (by decide)]

theorem collapseDots_join (ws : List (List Char)) :
    collapseDots (joinWords ws) = joinWords (ws.map collapseDots) := by
  induction ws with
  | nil => rfl
  | cons w ws ih =>
    cases ws with
    | nil => rfl
    | cons v ws2 =>
      show collapseDotsAux (w ++ ' ' :: joinSep ' ' (v :: ws2)) false = _
      rw [collapseDotsAux_append, collapseDotsAux_space]
      have ih2 : collapseDotsAux (joinSep ' ' (v :: ws2)) false =
          joinSep ' ' ((v :: ws2).map collapseDots) := ih
      rw [ih2]
      rfl

/-! Infix transfer through splitting, and closure of the no-adjacent-dots
predicate under contiguous substrings. -/

theorem mem_pySplitWsAux_sub :
    ∀ (cs acc w : List Char), w ∈ pySplitWsAux cs acc → w <:+: (acc.reverse ++ cs) := by
  intro cs
  induction cs with
  | nil =>
    intro acc w hw
    rw [pySplitWsAux_nil] at hw
    by_cases h : acc.isEmpty = true
    · rw [if_pos h] at hw
      exact absurd hw (List.not_mem_nil w)
    · rw [if_neg h] at hw
      rw [List.mem_singleton.mp hw, List.append_nil]
  | cons c cs ih =>
    intro acc w hw
    rw [pySplitWsAux_cons] at hw
    by_cases hsp : isPySpace c = true
    · rw [if_pos hsp] at hw
      have hrest : w ∈ pySplitWsAux cs [] → w <:+: acc.reverse ++ c :: cs := by
        intro hmem
        have h1 : w <:+: cs := by simpa using ih [] w hmem
        have h2 : (cs : List Char) <:+: acc.reverse ++ c :: cs :=
          ⟨acc.reverse ++ [c], [], by simp⟩
        exact h1.trans h2
      by_cases hacc0 : acc.isEmpty = true
      · rw [if_pos hacc0] at hw
        exact hrest hw
      · rw [if_neg hacc0] at hw
        rcases List.mem_cons.mp hw with h | h
        · rw [h]
          exact (List.prefix_append acc.reverse (c :: cs)).isInfix
        · exact hrest h
    · rw [if_neg hsp] at hw
      have := ih (c :: acc) w hw
      simpa [List.append_assoc] using this

theorem mem_pySplitWs_sub {cs w : List Char} (hw : w ∈ pySplitWs cs) : w <:+: cs := by
  simpa using mem_pySplitWsAux_sub cs [] w hw

theorem noAdjDots_append_left :
    ∀ {xs ys : List Char}, noAdjDots (xs ++ ys) = true → noAdjDots xs = true := by
  intro xs
  induction xs with
  | nil => intro ys _; rfl
  | cons a t ih =>
    intro ys h
    cases t with
    | nil => rfl
    | cons b t2 =>
      have h1 := (bool_and_split h).1
      have h2 := (bool_and_split h).2
      exact bool_and_join h1 (ih h2)

theorem noAdjDots_append_right :
    ∀ {xs ys : List Char}, noAdjDots (xs ++ ys) = true → noAdjDots ys = true := by
  intro xs
  induction xs with
  | nil => intro ys h; exact h
  | cons a t ih => intro ys h; exact ih (noAdjDots_tail h)

theorem noAdjDots_sub {w s : List Char} (hws : w <:+: s) (h : noAdjDots s = true) :
    noAdjDots w = true := by
  obtain ⟨u, v, rfl⟩ := hws
  exact noAdjDots_append_right (noAdjDots_append_left h)

theorem collapseDots_split_join (y : List Char) :
    collapseDots (joinWords (pySplitWs (collapseDots y))) =
      joinWords (pySplitWs (collapseDots y)) := by
  rw [collapseDots_join]
  congr 1
  have hall : ∀ w ∈ pySplitWs (collapseDots y), collapseDots w = w := fun w hw =>
    (collapseDotsAux_self w
      (noAdjDots_sub (mem_pySplitWs_sub hw) (collapseDotsAux_noAdj y).1)).1
  calc (pySplitWs (collapseDots y)).map collapseDots
      = (pySplitWs (collapseDots y)).map id := List.map_congr_left hall
    _ = _ := List.map_id _

/-! Lemmas about the marker-removal and parenthetical passes. -/

theorem rmMarkersGo_id (f : Nat) : ∀ cs, hasMarkerGo cs = false → rmMarkersGo f cs = cs := by
  induction f with
  | zero => intro cs _; rfl
  | succ f ih =>
    intro cs h
    cases cs with
    | nil => rfl
    | cons c cs2 =>
      have h1 : (matchMarker (c :: cs2)).isSome = false ∧ hasMarkerGo cs2 = false := by
        have hh : ((matchMarker (c :: cs2)).isSome || hasMarkerGo cs2) = false := h
        exact Bool.or_eq_false_iff.mp hh
      cases hmm : matchMarker (c :: cs2) with
      | some rest =>
        rw [hmm] at h1
        exact absurd h1.1 (by simp)
      | none =>
        simp only [rmMarkersGo, hmm]
        rw [ih cs2 h1.2]

theorem rmMarkers_id {cs : List Char} (h : hasMarkerGo cs = false) : rmMarkers cs = cs :=
  rmMarkersGo_id cs.length cs h

theorem parenFix_id {cs : List Char} (h : parenSearch cs = none) : parenFix cs = cs := by
  unfold parenFix
  rw [h]

theorem normalize_eq_join (t : List Char) :
    normalize_for_dedup t = joinWords (pySplitWs (collapseDots (parenFix (rmMarkers t)))) := by
  unfold normalize_for_dedup
  exact pyStrip_joinWords _ (pySplitWs_wordOk _)

/-- C4 counterexample: normalize_for_dedup is not idempotent.  On the text
"a (b).." the first pass does not fire the trailing-parenthetical rule
(two periods follow the closing parenthesis) but collapses the periods,
producing "a (b)."; a second pass then fires the parenthetical rule and
yields "a.". -/
theorem C4_counterexample :
    normalize_for_dedup (normalize_for_dedup ("a (b)..".data)) ≠
      normalize_for_dedup ("a (b)..".data) := by
  decide

/-- C4 amended: normalize_for_dedup is idempotent on every input whose
normalized form contains no page-break marker and no trailing-parenthetical
match (the two rewriting passes that can newly fire on their own output);
the dot-collapsing and whitespace-normalization passes are always stable on
the normalized form. -/
theorem C4_amended_idempotent (t : List Char)
    (hm : hasMarkerGo (normalize_for_dedup t) = false)
    (hp : parenSearch (normalize_for_dedup t) = none) :
    normalize_for_dedup (normalize_for_dedup t) = normalize_for_dedup t := by
  have h3 : collapseDots (normalize_for_dedup t) = normalize_for_dedup t := by
    rw [normalize_eq_join]
    exact collapseDots_split_join (parenFix (rmMarkers t))
  have hmain : normalize_for_dedup (normalize_for_dedup t) =
      pyStrip (joinWords (pySplitWs (normalize_for_dedup t))) := by
    show pyStrip (joinWords (pySplitWs (collapseDots (parenFix
      (rmMarkers (normalize_for_dedup t)))))) = _
    rw [rmMarkers_id hm, parenFix_id hp, h3]
  rw [hmain]
  conv_lhs => rw [normalize_eq_join]
  rw [pySplitWs_joinWords _ (pySplitWs_wordOk _),
    pyStrip_joinWords _ (pySplitWs_wordOk _), ← normalize_eq_join]

/-- C4 witness: a concrete already-stable input. -/
theorem C4_witness :
    normalize_for_dedup (normalize_for_dedup ("Smith, J. Title. Press.".data)) =
      normalize_for_dedup ("Smith, J. Title. Press.".data) :=
  C4_amended_idempotent ("Smith, J. Title. Press.".data) (by decide) (by decide)

/-! Lemmas about the literal matcher and runs. -/

theorem matchLit_decomp : ∀ (l cs r : List Char), matchLit l cs = some r → cs = l ++ r := by
  intro l
  induction l with
  | nil =>
    intro cs r h
    have h2 : cs = r := by simpa [matchLit] using h
    simp [h2]
  | cons a l ih =>
    intro cs r h
    cases cs with
    | nil => simp [matchLit] at h
    | cons c cs2 =>
      by_cases hca : c = a
      · have h2 : matchLit l cs2 = some r := by simpa [matchLit, hca] using h
        rw [List.cons_append, hca, ih cs2 r h2]
      · simp [matchLit, hca] at h

theorem matchLit_append {l cs r : List Char} (ext : List Char) (h : matchLit l cs = some r) :
    matchLit l (cs ++ ext) = some (r ++ ext) := by
  induction l generalizing cs with
  | nil =>
    have h2 : cs = r := by simpa [matchLit] using h
    simp [matchLit, h2]
  | cons a l ih =>
    cases cs with
    | nil => simp [matchLit] at h
    | cons c cs2 =>
      by_cases hca : c = a
      · have h2 : matchLit l cs2 = some r := by simpa [matchLit, hca] using h
        simpa [matchLit, hca] using ih h2
      · simp [matchLit, hca] at h

theorem takeWhile_self_append_drop (p : Char → Bool) (l : List Char) :
    l.takeWhile p ++ l.drop (l.takeWhile p).length = l := by
  induction l with
  | nil => rfl
  | cons c cs ih =>
    by_cases h : p c
    · simp [List.takeWhile_cons, h, ih]
    · simp [List.takeWhile_cons, h]

/-! The citation scan decomposes the input into segments. -/

theorem citMatchAt_decomp {cs : List Char} {m : CitMatch} (h : citMatchAt cs = some m) :
    cs = m.matched ++ m.rest := by
  unfold citMatchAt at h
  split at h
  · simp at h
  next r1 h1 =>
    split at h
    · simp at h
    next hds =>
      split at h
      · simp at h
      next r2 h2 =>
        split at h
        · simp at h
        next has =>
          split at h
          · simp at h
          next r3 h3 =>
            rw [Option.some.injEq] at h
            subst h
            show cs = (litCitOpen ++ r1.takeWhile Char.isDigit ++ litCitMid ++
              r2.takeWhile Char.isDigit ++ litCitClose) ++ r3
            calc cs = litCitOpen ++ r1 := matchLit_decomp _ _ _ h1
              _ = litCitOpen ++ (r1.takeWhile Char.isDigit ++
                    r1.drop (r1.takeWhile Char.isDigit).length) := by
                  rw [takeWhile_self_append_drop]
              _ = litCitOpen ++ (r1.takeWhile Char.isDigit ++ (litCitMid ++ r2)) := by
                  rw [matchLit_decomp _ _ _ h2]
              _ = litCitOpen ++ (r1.takeWhile Char.isDigit ++ (litCitMid ++
                    (r2.takeWhile Char.isDigit ++
                      r2.drop (r2.takeWhile Char.isDigit).length))) := by
                  rw [takeWhile_self_append_drop]
              _ = litCitOpen ++ (r1.takeWhile Char.isDigit ++ (litCitMid ++
                    (r2.takeWhile Char.isDigit ++ (litCitClose ++ r3)))) := by
                  rw [matchLit_decomp _ _ _ h3]
              _ = _ := by simp [List.append_assoc]

theorem flatten_map_lit_render (cs : List Char) :
    ((cs.map CSeg.lit).map csegRender).flatten = cs := by
  induction cs with
  | nil => rfl
  | cons c cs ih =>
    simp only [List.map_cons, List.flatten_cons, csegRender]
    rw [ih]
    rfl

theorem flatten_map_lit_update (cellIdx : Nat) (st : RefState) (cs : List Char) :
    ((cs.map CSeg.lit).map (csegUpdate cellIdx st)).flatten = cs := by
  induction cs with
  | nil => rfl
  | cons c cs ih =>
    simp only [List.map_cons, List.flatten_cons, csegUpdate]
    rw [ih]
    rfl

theorem citSegsGo_render : ∀ (fuel : Nat) (cs : List Char),
    ((citSegsGo fuel cs).map csegRender).flatten = cs := by
  intro fuel
  induction fuel with
  | zero => intro cs; exact flatten_map_lit_render cs
  | succ fuel ih =>
    intro cs
    cases cs with
    | nil => rfl
    | cons c cs2 =>
      cases hm : citMatchAt (c :: cs2) with
      | some m =>
        simp only [citSegsGo, hm, List.map_cons, List.flatten_cons, csegRender]
        rw [ih m.rest]
        exact (citMatchAt_decomp hm).symm
      | none =>
        simp only [citSegsGo, hm, List.map_cons, List.flatten_cons, csegRender]
        rw [ih cs2]
        rfl

theorem updateCitationsGo_eq_segs (cellIdx : Nat) (st : RefState) :
    ∀ (fuel : Nat) (cs : List Char),
      updateCitationsGo fuel cellIdx st cs =
        ((citSegsGo fuel cs).map (csegUpdate cellIdx st)).flatten := by
  intro fuel
  induction fuel with
  | zero => intro cs; exact (flatten_map_lit_update cellIdx st cs).symm
  | succ fuel ih =>
    intro cs
    cases cs with
    | nil => rfl
    | cons c cs2 =>
      cases hm : citMatchAt (c :: cs2) with
      | some m =>
        cases hl : dictLookup (cellIdx, m.localNum) st.cell_local_refs with
        | none =>
          simp only [updateCitationsGo, citSegsGo, hm, hl, List.map_cons,
            List.flatten_cons, csegUpdate]
          rw [ih m.rest]
        | some ref =>
          simp only [updateCitationsGo, citSegsGo, hm, hl, List.map_cons,
            List.flatten_cons, csegUpdate]
          rw [ih m.rest]
      | none =>
        simp only [updateCitationsGo, citSegsGo, hm, List.map_cons,
          List.flatten_cons, csegUpdate, List.singleton_append]
        rw [ih cs2]

/-- C5: a citation occurrence whose (cell index, local number) key has no
entry in cell_local_refs is left byte-for-byte unchanged by
update_citations_in_text, in place, while the rest of the text is rewritten
segment by segment; the rewrite is total, so no error can be raised. -/
theorem C5_unresolved_citation_kept (cellIdx : Nat) (st : RefState) (t : List Char)
    (s1 s2 : List CSeg) (m : CitMatch)
    (hsegs : citSegs t = s1 ++ CSeg.cite m :: s2)
    (hmiss : dictLookup (cellIdx, m.localNum) st.cell_local_refs = none) :
    t = (s1.map csegRender).flatten ++ m.matched ++ (s2.map csegRender).flatten ∧
    update_citations_in_text st cellIdx t =
      (s1.map (csegUpdate cellIdx st)).flatten ++ m.matched ++
        (s2.map (csegUpdate cellIdx st)).flatten := by
  constructor
  · have hr : ((citSegs t).map csegRender).flatten = t := citSegsGo_render t.length t
    rw [hsegs] at hr
    rw [← hr]
    simp [csegRender, List.map_append, List.flatten_append, List.append_assoc]
  · have hu : update_citations_in_text st cellIdx t =
        ((citSegs t).map (csegUpdate cellIdx st)).flatten :=
      updateCitationsGo_eq_segs cellIdx st t.length t
    rw [hu, hsegs]
    simp [csegUpdate, hmiss, List.map_append, List.flatten_append, List.append_assoc]

/-- C5 witness: in a cell where local number 1 is defined but 5 is not,
citation 1 is rewritten and citation 5 is kept verbatim. -/
theorem C5_witness :
    update_citations_in_text st5 0 src5 =
      ("A [[1]](#global_ref1) B [[5]](#ref5)\n<a id=\"ref1\"></a>[1] Foo.".data) := by
  have h := (C5_unresolved_citation_kept 0 st5 src5 c5seg1 c5seg2 c5mid
    (by decide) (by decide)).2
  rw [h]
  decide

/-! Dictionary lemmas. -/

theorem dictLookup_insert_self {κ α : Type} [DecidableEq κ] (k : κ) (v : α) :
    ∀ m : List (κ × α), dictLookup k (dictInsert k v m) = some v := by
  intro m
  induction m with
  | nil => simp [dictInsert, dictLookup]
  | cons kv m ih =>
    by_cases h : kv.1 = k
    · simp [dictInsert, dictLookup, h]
    · simp [dictInsert, dictLookup, h, ih]

theorem dictLookup_insert_ne {κ α : Type} [DecidableEq κ] {k k2 : κ} (hne : k2 ≠ k) (v : α) :
    ∀ m : List (κ × α), dictLookup k (dictInsert k2 v m) = dictLookup k m := by
  intro m
  induction m with
  | nil => simp [dictInsert, dictLookup, hne]
  | cons kv m ih =>
    by_cases h : kv.1 = k2
    · simp [dictInsert, dictLookup, h, hne]
    · by_cases h2 : kv.1 = k
      · simp [dictInsert, dictLookup, h, h2, Ne.symm hne]
      · simp [dictInsert, dictLookup, h, h2, ih]

theorem dictLookup_isSome_iff {κ α : Type} [DecidableEq κ] (k : κ) :
    ∀ m : List (κ × α), (dictLookup k m).isSome = true ↔ k ∈ m.map Prod.fst := by
  intro m
  induction m with
  | nil => simp [dictLookup]
  | cons kv m ih =>
    by_cases h : kv.1 = k
    · simp [dictLookup, h]
    · simp only [dictLookup, if_neg h, List.map_cons, List.mem_cons, ih]
      constructor
      · intro hh
        exact Or.inr hh
      · intro hh
        rcases hh with hh | hh
        · exact absurd hh.symm h
        · exact hh

theorem dictInsert_fresh {κ α : Type} [DecidableEq κ] {k : κ} (v : α) :
    ∀ m : List (κ × α), k ∉ m.map Prod.fst → dictInsert k v m = m ++ [(k, v)] := by
  intro m
  induction m with
  | nil => intro _; rfl
  | cons kv m ih =>
    intro h
    simp only [List.map_cons, List.mem_cons] at h
    have h1 : kv.1 ≠ k := fun he => h (Or.inl he.symm)
    simp only [dictInsert, if_neg h1, List.cons_append]
    rw [ih (fun hm => h (Or.inr hm))]

/-! The build fold: flattening and the order invariant. -/

theorem foldl_inner_flatten {α β σ : Type} (f : α → List β) (g : σ → β → σ) :
    ∀ (l : List α) (s : σ),
      l.foldl (fun st a => (f a).foldl g st) s = ((l.map f).flatten).foldl g s := by
  intro l
  induction l with
  | nil => intro s; rfl
  | cons a l ih =>
    intro s
    show l.foldl _ ((f a).foldl g s) = _
    rw [ih]
    simp [List.foldl_append]

theorem build_eq_fold (cells : List Cell) :
    build_global_reference_map cells = (allCellDefs cells).foldl processDef initState :=
  foldl_inner_flatten _ _ _ _

theorem processDef_lookup_some {st : RefState} {r ex : Reference}
    (hl : dictLookup (normalize_for_dedup r.definition) st.unique_references = some ex) :
    processDef st r =
      { st with cell_local_refs :=
          dictInsert (r.cell_index, r.local_num) ex st.cell_local_refs } := by
  unfold processDef
  rw [hl]

theorem processDef_lookup_none {st : RefState} {r : Reference}
    (hl : dictLookup (normalize_for_dedup r.definition) st.unique_references = none) :
    processDef st r =
      { unique_references :=
          dictInsert (normalize_for_dedup r.definition) r st.unique_references,
        cell_local_refs := dictInsert (r.cell_index, r.local_num) r st.cell_local_refs,
        global_order := st.global_order ++ [r] } := by
  unfold processDef
  rw [hl]

theorem specDedupFirst_cons (acc : List Reference) (r : Reference) (rs : List Reference) :
    specDedupFirst acc (r :: rs) =
      if acc.any (fun x =>
          decide (normalize_for_dedup x.definition = normalize_for_dedup r.definition))
      then specDedupFirst acc rs
      else specDedupFirst (acc ++ [r]) rs := rfl

theorem processFold_order : ∀ (ds : List Reference) (st : RefState),
    st.unique_references.map Prod.fst = st.global_order.map nrm →
    (st.unique_references.map Prod.fst).Nodup →
    (ds.foldl processDef st).global_order = specDedupFirst st.global_order ds ∧
    (ds.foldl processDef st).unique_references.map Prod.fst =
      (ds.foldl processDef st).global_order.map nrm ∧
    ((ds.foldl processDef st).unique_references.map Prod.fst).Nodup := by
  intro ds
  induction ds with
  | nil =>
    intro st h1 h2
    exact ⟨rfl, h1, h2⟩
  | cons r ds ih =>
    intro st h1 h2
    rw [List.foldl_cons, specDedupFirst_cons]
    cases hl : dictLookup (normalize_for_dedup r.definition) st.unique_references with
    | some ex =>
      have hmem : normalize_for_dedup r.definition ∈ st.unique_references.map Prod.fst :=
        (dictLookup_isSome_iff _ _).mp (by rw [hl]; rfl)
      rw [h1] at hmem
      have hany : st.global_order.any (fun x =>
          decide (normalize_for_dedup x.definition = normalize_for_dedup r.definition)) =
            true := by
        rcases List.mem_map.mp hmem with ⟨x, hx, hxe⟩
        refine List.any_eq_true.mpr ⟨x, hx, ?_⟩
        simpa [nrm] using hxe
      rw [processDef_lookup_some hl, if_pos hany]
      exact ih _ h1 h2
    | none =>
      have hfresh : normalize_for_dedup r.definition ∉ st.unique_references.map Prod.fst := by
        intro hmem
        have := (dictLookup_isSome_iff _ _).mpr hmem
        rw [hl] at this
        simp at this
      have hnotin : normalize_for_dedup r.definition ∉ st.global_order.map nrm := by
        rw [← h1]; exact hfresh
      have hany : st.global_order.any (fun x =>
          decide (normalize_for_dedup x.definition = normalize_for_dedup r.definition)) =
            false := by
        by_contra hc
        have hc2 : st.global_order.any (fun x =>
            decide (normalize_for_dedup x.definition = normalize_for_dedup r.definition)) =
              true := by
          cases hx : st.global_order.any (fun x =>
            decide (normalize_for_dedup x.definition = normalize_for_dedup r.definition))
          · exact absurd hx hc
          · rfl
        rcases List.any_eq_true.mp hc2 with ⟨x, hx, hxe⟩
        apply hnotin
        refine List.mem_map.mpr ⟨x, hx, ?_⟩
        simpa [nrm] using hxe
      rw [processDef_lookup_none hl, if_neg (by rw [hany]; simp)]
      have hins : dictInsert (normalize_for_dedup r.definition) r st.unique_references =
          st.unique_references ++ [(normalize_for_dedup r.definition, r)] :=
        dictInsert_fresh r _ hfresh
      refine ih _ ?_ ?_
      · show (dictInsert (normalize_for_dedup r.definition) r
          st.unique_references).map Prod.fst = (st.global_order ++ [r]).map nrm
        rw [hins]
        simp only [List.map_append, h1]
        rfl
      · show ((dictInsert (normalize_for_dedup r.definition) r
          st.unique_references).map Prod.fst).Nodup
        rw [hins]
        simp only [List.map_append]
        rw [List.nodup_append]
        refine ⟨h2, List.nodup_singleton _, ?_⟩
        intro a ha hb
        simp only [List.map_cons, List.map_nil, List.mem_singleton] at hb
        rw [hb] at ha
        exact hfresh ha

/-! The defined_refs dict is the raw match list when anchor ids are
pairwise distinct within the cell. -/

theorem buildDefDict_go : ∀ (ds : List Reference) (d : List (List Char × Reference)),
    (∀ r ∈ ds, r.local_id ∉ d.map Prod.fst) →
    ((ds.map Reference.local_id).Nodup) →
    ds.foldl (fun d r => dictInsert r.local_id r d) d =
      d ++ ds.map (fun r => (r.local_id, r)) := by
  intro ds
  induction ds with
  | nil => intro d _ _; simp
  | cons r ds ih =>
    intro d hd hnd
    have hfresh2 : ∀ r2 ∈ ds, r2.local_id ∉ (d ++ [(r.local_id, r)]).map Prod.fst := by
      intro r2 hr2 hmem
      rw [List.map_append] at hmem
      rcases List.mem_append.mp hmem with hmem | hmem
      · exact hd r2 (List.mem_cons_of_mem r hr2) hmem
      · simp only [List.map_cons, List.map_nil, List.mem_singleton] at hmem
        exact (List.nodup_cons.mp hnd).1
          (hmem ▸ List.mem_map_of_mem Reference.local_id hr2)
    rw [List.foldl_cons, dictInsert_fresh r d (hd r (List.mem_cons_self r ds)),
      ih (d ++ [(r.local_id, r)]) hfresh2 (List.nodup_cons.mp hnd).2]
    simp

theorem buildDefDict_eq {ds : List Reference} (h : (ds.map Reference.local_id).Nodup) :
    buildDefDict ds = ds.map (fun r => (r.local_id, r)) := by
  have := buildDefDict_go ds [] (by simp) h
  simpa [buildDefDict] using this

theorem cellDefs_markdown_eq {idx : Nat} {src : List Char}
    (h : ((extract_defs idx src).map Reference.local_id).Nodup) :
    cellDefs idx (Cell.markdown src) = extract_defs idx src := by
  show (buildDefDict (extract_defs idx src)).map Prod.snd = _
  rw [buildDefDict_eq h, List.map_map]
  calc (extract_defs idx src).map (Prod.snd ∘ fun r => (r.local_id, r))
      = (extract_defs idx src).map id := List.map_congr_left (fun a _ => rfl)
    _ = _ := List.map_id _

theorem allCellDefs_eq_raw (cells : List Cell) (H : (cells.enum.all cellIdsOk) = true) :
    allCellDefs cells = rawCellDefs cells := by
  unfold allCellDefs rawCellDefs
  congr 1
  apply List.map_congr_left
  intro ic hic
  have hok : cellIdsOk ic = true := List.all_eq_true.mp H ic hic
  obtain ⟨idx, cell⟩ := ic
  cases cell with
  | markdown src =>
    have hnd : ((extract_defs idx src).map Reference.local_id).Nodup := by
      simpa [cellIdsOk] using hok
    exact cellDefs_markdown_eq hnd
  | code src => rfl

/-! Global numbers are positions in a duplicate-free global order. -/

theorem refIndex_get : ∀ (l : List Reference), l.Nodup → ∀ (i : Nat) (hi : i < l.length),
    refIndex l (l.get ⟨i, hi⟩) = i := by
  intro l
  induction l with
  | nil => intro _ i hi; simp at hi
  | cons a l ih =>
    intro hn i hi
    cases i with
    | zero => simp [refIndex, List.findIdx_cons]
    | succ i =>
      have hi2 : i < l.length := by simpa using hi
      have hmem : l.get ⟨i, hi2⟩ ∈ l := l.get_mem i hi2
      have hne : ¬ (a = l.get ⟨i, hi2⟩) := fun he => (List.nodup_cons.mp hn).1 (he ▸ hmem)
      show refIndex (a :: l) (l.get ⟨i, hi2⟩) = i + 1
      simp only [refIndex, List.findIdx_cons]
      have hpa : decide (a = l.get ⟨i, hi2⟩) = false := by simpa using hne
      rw [hpa]
      have := ih (List.nodup_cons.mp hn).2 i hi2
      simp only [refIndex] at this
      simpa using this

theorem extractDefsGo_cell_index : ∀ (fuel idx : Nat) (cs : List Char),
    ∀ r ∈ extractDefsGo fuel idx cs, r.cell_index = idx := by
  intro fuel
  induction fuel with
  | zero => intro idx cs r hr; simp [extractDefsGo] at hr
  | succ fuel ih =>
    intro idx cs r hr
    cases hs : defSearch cs with
    | none =>
      rw [extractDefsGo, hs] at hr
      simp at hr
    | some pm =>
      obtain ⟨p, m⟩ := pm
      rw [extractDefsGo, hs] at hr
      rcases List.mem_cons.mp hr with h | h
      · rw [h]
      · exact ih idx m.rest r h

theorem mem_cell_keys_fst {ic : Nat × Cell} {k : Nat × Nat}
    (hk : k ∈ ((match ic.2 with
        | Cell.markdown src => extract_defs ic.1 src
        | Cell.code _ => []) : List Reference).map refKey) :
    k.1 = ic.1 := by
  rcases List.mem_map.mp hk with ⟨r, hr, hkr⟩
  obtain ⟨idx, cell⟩ := ic
  cases cell with
  | markdown src =>
    have h2 : r.cell_index = idx := extractDefsGo_cell_index _ idx src r hr
    rw [← hkr]
    simpa [refKey] using h2
  | code src => simp at hr

theorem mem_raw_fst : ∀ (l : List (Nat × Cell)) (k : Nat × Nat),
    k ∈ (((l.map (fun ic => match ic.2 with
        | Cell.markdown src => extract_defs ic.1 src
        | Cell.code _ => [])).flatten).map refKey) →
    k.1 ∈ l.map Prod.fst := by
  intro l
  induction l with
  | nil => intro k hk; simp at hk
  | cons ic l ih =>
    intro k hk
    simp only [List.map_cons, List.flatten_cons, List.map_append, List.mem_append] at hk
    rcases hk with hk | hk
    · simp only [List.map_cons, List.mem_cons]
      exact Or.inl (mem_cell_keys_fst hk)
    · simp only [List.map_cons, List.mem_cons]
      exact Or.inr (ih k hk)

theorem rawKeys_nodup_go : ∀ (l : List (Nat × Cell)),
    (l.map Prod.fst).Nodup →
    (∀ ic ∈ l, cellNumsOk ic = true) →
    ((((l.map (fun ic => match ic.2 with
        | Cell.markdown src => extract_defs ic.1 src
        | Cell.code _ => [])).flatten).map refKey)).Nodup := by
  intro l
  induction l with
  | nil => intro _ _; simp
  | cons ic l ih =>
    intro hfst hok
    simp only [List.map_cons, List.flatten_cons, List.map_append]
    rw [List.nodup_append]
    refine ⟨?_,
      ih (List.nodup_cons.mp hfst).2 (fun x hx => hok x (List.mem_cons_of_mem ic hx)), ?_⟩
    · obtain ⟨idx, cell⟩ := ic
      cases cell with
      | code src => simp
      | markdown src =>
        have hnums : ((extract_defs idx src).map Reference.local_num).Nodup := by
          have := hok (idx, Cell.markdown src) (List.mem_cons_self _ _)
          simpa [cellNumsOk] using this
        have hcomp : (extract_defs idx src).map Reference.local_num =
            ((extract_defs idx src).map refKey).map Prod.snd := by
          rw [List.map_map]
          rfl
        rw [hcomp] at hnums
        exact hnums.of_map
    · intro k hkA hkB
      have h0 : k.1 = ic.1 := mem_cell_keys_fst hkA
      have h1 : k.1 ∈ l.map Prod.fst := mem_raw_fst l k hkB
      rw [h0] at h1
      exact (List.nodup_cons.mp hfst).1 h1

theorem rawKeys_nodup (cells : List Cell) (H : (cells.enum.all cellNumsOk) = true) :
    ((rawCellDefs cells).map refKey).Nodup := by
  unfold rawCellDefs
  apply rawKeys_nodup_go
  · rw [List.enum_map_fst]
    exact List.nodup_range _
  · exact fun ic hic => List.all_eq_true.mp H ic hic

/-! Stability of lookups over the rest of the build fold. -/

theorem processDef_unique_stable {st : RefState} {k : List Char} {v : Reference}
    (h : dictLookup k st.unique_references = some v) (r : Reference) :
    dictLookup k (processDef st r).unique_references = some v := by
  cases hl : dictLookup (normalize_for_dedup r.definition) st.unique_references with
  | some ex =>
    rw [processDef_lookup_some hl]
    exact h
  | none =>
    have hne : normalize_for_dedup r.definition ≠ k := by
      intro he
      rw [he, h] at hl
      simp at hl
    rw [processDef_lookup_none hl]
    show dictLookup k
      (dictInsert (normalize_for_dedup r.definition) r st.unique_references) = some v
    rw [dictLookup_insert_ne hne]
    exact h

theorem foldDefs_unique_stable : ∀ (ds : List Reference) (st : RefState) {k : List Char}
    {v : Reference}, dictLookup k st.unique_references = some v →
    dictLookup k ((ds.foldl processDef st).unique_references) = some v := by
  intro ds
  induction ds with
  | nil => intro st k v h; exact h
  | cons r ds ih =>
    intro st k v h
    rw [List.foldl_cons]
    exact ih _ (processDef_unique_stable h r)

theorem processDef_cellLocal_insert (st : RefState) (r : Reference) :
    ∃ v, (processDef st r).cell_local_refs =
      dictInsert (r.cell_index, r.local_num) v st.cell_local_refs := by
  cases hl : dictLookup (normalize_for_dedup r.definition) st.unique_references with
  | some ex => exact ⟨ex, by rw [processDef_lookup_some hl]⟩
  | none => exact ⟨r, by rw [processDef_lookup_none hl]⟩

theorem foldDefs_cellLocal_stable : ∀ (ds : List Reference) (st : RefState)
    {k : Nat × Nat} {v : Reference},
    dictLookup k st.cell_local_refs = some v →
    (∀ r ∈ ds, refKey r ≠ k) →
    dictLookup k ((ds.foldl processDef st).cell_local_refs) = some v := by
  intro ds
  induction ds with
  | nil => intro st k v h _; exact h
  | cons r ds ih =>
    intro st k v h hkeys
    rw [List.foldl_cons]
    refine ih _ ?_ (fun r2 h2 => hkeys r2 (List.mem_cons_of_mem r h2))
    obtain ⟨w, hw⟩ := processDef_cellLocal_insert st r
    have hne : (r.cell_index, r.local_num) ≠ k := hkeys r (List.mem_cons_self r ds)
    rw [hw, dictLookup_insert_ne hne w]
    exact h

/-- Every definition's key ends up mapped to the canonical reference filed
under its normalized text, provided keys are pairwise distinct. -/
theorem foldDefs_key_lookup : ∀ (ds : List Reference) (st : RefState),
    ((ds.map refKey).Nodup) →
    ∀ d ∈ ds, ∃ v,
      dictLookup (refKey d) ((ds.foldl processDef st).cell_local_refs) = some v ∧
      dictLookup (nrm d) ((ds.foldl processDef st).unique_references) = some v := by
  intro ds
  induction ds with
  | nil => intro st _ d hd; simp at hd
  | cons r ds ih =>
    intro st hnd d hd
    rw [List.foldl_cons]
    rcases List.mem_cons.mp hd with rfl | hd2
    · have hknotin : ∀ r2 ∈ ds, refKey r2 ≠ refKey d := by
        intro r2 h2 he
        exact (List.nodup_cons.mp hnd).1 (he ▸ List.mem_map_of_mem refKey h2)
      cases hl : dictLookup (normalize_for_dedup d.definition) st.unique_references with
      | some ex =>
        refine ⟨ex, ?_, ?_⟩
        · refine foldDefs_cellLocal_stable ds _ ?_ hknotin
          rw [processDef_lookup_some hl]
          exact dictLookup_insert_self _ _ _
        · refine foldDefs_unique_stable ds _ ?_
          rw [processDef_lookup_some hl]
          exact hl
      | none =>
        refine ⟨d, ?_, ?_⟩
        · refine foldDefs_cellLocal_stable ds _ ?_ hknotin
          rw [processDef_lookup_none hl]
          exact dictLookup_insert_self _ _ _
        · refine foldDefs_unique_stable ds _ ?_
          rw [processDef_lookup_none hl]
          exact dictLookup_insert_self _ _ _
    · exact ih (processDef st r) (List.nodup_cons.mp hnd).2 d hd2

/-- C2 counterexample: with a duplicated anchor id inside one cell, the
defined_refs dict reorders and drops definitions, so the global order is
not the first-appearance order of the definitions as they occur in the
text. -/
theorem C2_counterexample :
    ((build_global_reference_map cexC2cells).global_order.map Reference.definition) =
      ["Gamma.".data, "Beta.".data] ∧
    ((specFirstAppearanceOrder cexC2cells).map Reference.definition) =
      ["Alpha.".data, "Beta.".data, "Gamma.".data] ∧
    (build_global_reference_map cexC2cells).global_order ≠
      specFirstAppearanceOrder cexC2cells := by
  decide

/-- C2 amended: global numbering is dense and 1-based on every input, with
no hypothesis; and when the definition anchor ids within every cell are
pairwise distinct, the global order is exactly the first-appearance order
of definitions, scanning cells by index and definitions by text position,
deduplicated by normalized text. -/
theorem C2_amended_dense_first_appearance (cells : List Cell) :
    (∀ (i : Nat) (hi : i < (build_global_reference_map cells).global_order.length),
      globalNum (build_global_reference_map cells)
        ((build_global_reference_map cells).global_order.get ⟨i, hi⟩) = i + 1) ∧
    ((cells.enum.all cellIdsOk) = true →
      (build_global_reference_map cells).global_order = specFirstAppearanceOrder cells) := by
  obtain ⟨ho, hk, hndk⟩ :=
    processFold_order (allCellDefs cells) initState rfl (by simp [initState])
  have hbuild := build_eq_fold cells
  constructor
  · intro i hi
    have hnd : (build_global_reference_map cells).global_order.Nodup := by
      rw [hbuild]
      refine List.Nodup.of_map nrm ?_
      rw [← hk]
      exact hndk
    show refIndex (build_global_reference_map cells).global_order _ + 1 = i + 1
    rw [refIndex_get _ hnd i hi]
  · intro H
    rw [hbuild, ho, allCellDefs_eq_raw cells H]
    rfl

/-- C2 witness: density exercised on the duplicated-anchor-id document
(where the order conjunct's hypothesis fails), and the first-appearance
order on a distinct-anchor-id document. -/
theorem C2_witness :
    (globalNum (build_global_reference_map cexC2cells)
      ((build_global_reference_map cexC2cells).global_order.get ⟨1, by decide⟩) = 2) ∧
    ((build_global_reference_map c1wcells).global_order =
      specFirstAppearanceOrder c1wcells) :=
  ⟨(C2_amended_dense_first_appearance cexC2cells).1 1 (by decide),
   (C2_amended_dense_first_appearance c1wcells).2 (by decide)⟩

/-- C1 counterexample: two definitions in one cell sharing a local number
make the second overwrite the first key, so two definitions with equal
normalized text (the first and third raw definitions, keyed (0,1) and
(1,1)) do not resolve to the same canonical Reference. -/
theorem C1_counterexample :
    ((rawCellDefs cexC1cells).map refKey) = [(0, 1), (0, 1), (1, 1)] ∧
    ((rawCellDefs cexC1cells).map (fun r => normalize_for_dedup r.definition)) =
      ["Foo.".data, "Bar.".data, "Foo.".data] ∧
    dictLookup (0, 1) (build_global_reference_map cexC1cells).cell_local_refs ≠
      dictLookup (1, 1) (build_global_reference_map cexC1cells).cell_local_refs := by
  decide

/-- C1 amended: when within every cell the definitions carry pairwise
distinct anchor ids and pairwise distinct local numbers, any two
definitions of the document whose normalized texts are equal resolve
through their (cell index, local number) keys to the same canonical
Reference, which exists, and hence to the same global number. -/
theorem C1_amended_dedup_join (cells : List Cell)
    (Hids : (cells.enum.all cellIdsOk) = true)
    (Hnums : (cells.enum.all cellNumsOk) = true)
    (d1 d2 : Reference)
    (h1 : d1 ∈ rawCellDefs cells) (h2 : d2 ∈ rawCellDefs cells)
    (heq : normalize_for_dedup d1.definition = normalize_for_dedup d2.definition) :
    dictLookup (d1.cell_index, d1.local_num)
        (build_global_reference_map cells).cell_local_refs =
      dictLookup (d2.cell_index, d2.local_num)
        (build_global_reference_map cells).cell_local_refs ∧
    (dictLookup (d1.cell_index, d1.local_num)
        (build_global_reference_map cells).cell_local_refs).isSome = true := by
  have hbuild : build_global_reference_map cells =
      (rawCellDefs cells).foldl processDef initState := by
    rw [build_eq_fold cells, allCellDefs_eq_raw cells Hids]
  have hknd := rawKeys_nodup cells Hnums
  obtain ⟨v1, hv1, hu1⟩ := foldDefs_key_lookup (rawCellDefs cells) initState hknd d1 h1
  obtain ⟨v2, hv2, hu2⟩ := foldDefs_key_lookup (rawCellDefs cells) initState hknd d2 h2
  have heqv : v1 = v2 := by
    have hu1b : dictLookup (normalize_for_dedup d1.definition)
        (((rawCellDefs cells).foldl processDef initState).unique_references) = some v1 := hu1
    have hu2b : dictLookup (normalize_for_dedup d2.definition)
        (((rawCellDefs cells).foldl processDef initState).unique_references) = some v2 := hu2
    rw [heq, hu2b] at hu1b
    exact (Option.some.inj hu1b).symm
  constructor
  · rw [hbuild]
    show dictLookup (refKey d1)
        ((rawCellDefs cells).foldl processDef initState).cell_local_refs =
      dictLookup (refKey d2)
        ((rawCellDefs cells).foldl processDef initState).cell_local_refs
    rw [hv1, hv2, heqv]
  · rw [hbuild]
    show (dictLookup (refKey d1)
        ((rawCellDefs cells).foldl processDef initState).cell_local_refs).isSome = true
    rw [hv1]
    rfl

/-- C1 witness: "Foo. (see also appendix)." in cell 0 and "Foo." in cell 1
normalize identically and resolve to the same canonical Reference. -/
theorem C1_witness :
    dictLookup (0, 1) (build_global_reference_map c1wcells).cell_local_refs =
      dictLookup (1, 1) (build_global_reference_map c1wcells).cell_local_refs ∧
    (dictLookup (0, 1) (build_global_reference_map c1wcells).cell_local_refs).isSome =
      true :=
  C1_amended_dedup_join c1wcells (by decide) (by decide) c1d1 c1d2 (by decide) (by decide)
    (by decide)

/-! Lemmas about greedy runs under extension of the input, used to show
that a definition match survives appending more text. -/

theorem drop_takeWhile_length (p : Char → Bool) : ∀ l : List Char,
    l.drop (l.takeWhile p).length = l.dropWhile p := by
  intro l
  induction l with
  | nil => rfl
  | cons c cs ih =>
    by_cases h : p c
    · simp [List.takeWhile_cons, List.dropWhile_cons, h, ih]
    · simp [List.takeWhile_cons, List.dropWhile_cons, h]

theorem dropWhile_append_ne {p : Char → Bool} : ∀ {a : List Char} (b : List Char),
    a.dropWhile p ≠ [] → (a ++ b).dropWhile p = a.dropWhile p ++ b := by
  intro a
  induction a with
  | nil => intro b h; exact absurd rfl h
  | cons c a2 ih =>
    intro b h
    by_cases hc : p c
    · have h2 : a2.dropWhile p ≠ [] := by simpa [List.dropWhile_cons, hc] using h
      simp [List.dropWhile_cons, hc, ih b h2]
    · simp [List.dropWhile_cons, hc]

theorem takeWhile_append_of_ne {p : Char → Bool} : ∀ {a : List Char} (b : List Char),
    a.dropWhile p ≠ [] → (a ++ b).takeWhile p = a.takeWhile p := by
  intro a
  induction a with
  | nil => intro b h; exact absurd rfl h
  | cons c a2 ih =>
    intro b h
    by_cases hc : p c
    · have h2 : a2.dropWhile p ≠ [] := by simpa [List.dropWhile_cons, hc] using h
      simp [List.takeWhile_cons, hc, ih b h2]
    · simp [List.takeWhile_cons, hc]

theorem dropWhile_head_not {p : Char → Bool} : ∀ {l : List Char} {c : Char} {r : List Char},
    l.dropWhile p = c :: r → p c = false := by
  intro l
  induction l with
  | nil => intro c r h; simp [List.dropWhile] at h
  | cons a l2 ih =>
    intro c r h
    by_cases ha : p a
    · rw [List.dropWhile_cons, if_pos ha] at h
      exact ih h
    · rw [List.dropWhile_cons, if_neg ha] at h
      injection h with h1 _
      rw [← h1]
      cases hpa : p a with
      | false => rfl
      | true => exact absurd hpa ha

/-- The final part of the definition pattern succeeds exactly when some
character of the input is not a newline. -/
theorem tailMatch_isSome_iff : ∀ cs : List Char,
    (tailMatch cs).isSome = true ↔ ∃ d ∈ cs, d ≠ '\n' := by
  intro cs
  unfold tailMatch
  cases hd : cs.drop (cs.takeWhile isPySpace).length with
  | cons c r =>
    rw [drop_takeWhile_length] at hd
    simp only [Option.isSome_some, true_iff]
    have hc : isPySpace c = false := dropWhile_head_not hd
    have hcne : c ≠ '\n' := by
      intro he
      rw [he] at hc
      simp [isPySpace] at hc
    have hcm : c ∈ cs := (List.dropWhile_sublist isPySpace).subset (by rw [hd]; simp)
    exact ⟨c, hcm, hcne⟩
  | nil =>
    rw [drop_takeWhile_length] at hd
    have htake : cs.takeWhile isPySpace = cs := by
      have := List.takeWhile_append_dropWhile isPySpace cs
      rw [hd, List.append_nil] at this
      exact this
    cases hrd : ((cs.takeWhile isPySpace).reverse).dropWhile (fun d => d = '\n') with
    | nil =>
      constructor
      · intro h
        simp at h
      · rintro ⟨d, hdm, hdne⟩
        rw [htake] at hrd
        have hall := List.dropWhile_eq_nil_iff.mp hrd
        exact ((hdne (by simpa using hall d (List.mem_reverse.mpr hdm)))).elim
    | cons d t =>
      simp only [Option.isSome_some, true_iff]
      have hdne : d ≠ '\n' := by
        have := dropWhile_head_not hrd
        simpa using this
      have hdm : d ∈ cs := by
        rw [htake] at hrd
        have : d ∈ cs.reverse :=
          (List.dropWhile_sublist (fun d => d = '\n')).subset (by rw [hrd]; simp)
        exact List.mem_reverse.mp this
      exact ⟨d, hdm, hdne⟩

theorem tailMatch_extend {cs : List Char} (ext : List Char)
    (h : (tailMatch cs).isSome = true) : (tailMatch (cs ++ ext)).isSome = true := by
  rw [tailMatch_isSome_iff] at h ⊢
  rcases h with ⟨d, hdm, hdne⟩
  exact ⟨d, List.mem_append.mpr (Or.inl hdm), hdne⟩

/-- A definition match at the head of a text still matches after more text
is appended: every greedy run inside the pattern is terminated by a literal
that already occurred, except the final group, which survives extension. -/
theorem defMatchAt_extend {cs : List Char} (ext : List Char)
    (h : (defMatchAt cs).isSome = true) : (defMatchAt (cs ++ ext)).isSome = true := by
  unfold defMatchAt at h ⊢
  split at h
  · simp at h
  next r1 h1 =>
    split at h
    · simp at h
    next c r2 =>
      split at h
      case isTrue hc =>
        split at h
        · simp at h
        next r3 h3 =>
          split at h
          · simp at h
          next r4 h4 =>
            split at h
            · simp at h
            next hde =>
              split at h
              · simp at h
              next r5 h5 =>
                split at h
                · simp at h
                next r6 h6 =>
                  split at h
                  · simp at h
                  next hne =>
                    split at h
                    · simp at h
                    next r7 h7 =>
                      split at h
                      · simp at h
                      next gr h8 =>
                        have e1 : matchLit litAOpen (cs ++ ext) =
                            some ((c :: r2) ++ ext) := matchLit_append ext h1
                        have hsne : skipWs r2 ≠ [] := by
                          rw [matchLit_decomp _ _ _ h3]
                          simp [litIdEq]
                        have e2 : matchLit litIdEq (skipWs (r2 ++ ext)) =
                            some (r3 ++ ext) := by
                          show matchLit litIdEq ((r2 ++ ext).dropWhile isPySpace) = _
                          rw [dropWhile_append_ne ext hsne]
                          exact matchLit_append ext h3
                        have e3 : matchLit litRef (r3 ++ ext) = some (r4 ++ ext) :=
                          matchLit_append ext h4
                        have hdne : r4.dropWhile Char.isDigit ≠ [] := by
                          rw [← drop_takeWhile_length, matchLit_decomp _ _ _ h5]
                          simp [litQuote]
                        have e4a : (r4 ++ ext).takeWhile Char.isDigit =
                            r4.takeWhile Char.isDigit := takeWhile_append_of_ne ext hdne
                        have e4b : (r4 ++ ext).drop
                              (r4.takeWhile Char.isDigit).length =
                            r4.drop (r4.takeWhile Char.isDigit).length ++ ext := by
                          conv_lhs => rw [← e4a]
                          rw [drop_takeWhile_length, dropWhile_append_ne ext hdne,
                            drop_takeWhile_length]
                        have e5 : matchLit litQuote
                            (r4.drop (r4.takeWhile Char.isDigit).length ++ ext) =
                            some (r5 ++ ext) := matchLit_append ext h5
                        have hsne2 : skipWs r5 ≠ [] := by
                          rw [matchLit_decomp _ _ _ h6]
                          simp [litCloseA]
                        have e6 : matchLit litCloseA (skipWs (r5 ++ ext)) =
                            some (r6 ++ ext) := by
                          show matchLit litCloseA ((r5 ++ ext).dropWhile isPySpace) = _
                          rw [dropWhile_append_ne ext hsne2]
                          exact matchLit_append ext h6
                        have hdne2 : r6.dropWhile Char.isDigit ≠ [] := by
                          rw [← drop_takeWhile_length, matchLit_decomp _ _ _ h7]
                          simp [litRBrack]
                        have e7a : (r6 ++ ext).takeWhile Char.isDigit =
                            r6.takeWhile Char.isDigit := takeWhile_append_of_ne ext hdne2
                        have e7b : (r6 ++ ext).drop
                              (r6.takeWhile Char.isDigit).length =
                            r6.drop (r6.takeWhile Char.isDigit).length ++ ext := by
                          conv_lhs => rw [← e7a]
                          rw [drop_takeWhile_length, dropWhile_append_ne ext hdne2,
                            drop_takeWhile_length]
                        have e8 : matchLit litRBrack
                            (r6.drop (r6.takeWhile Char.isDigit).length ++ ext) =
                            some (r7 ++ ext) := matchLit_append ext h7
                        have h9 : (tailMatch (r7 ++ ext)).isSome = true :=
                          tailMatch_extend ext (by rw [h8]; rfl)
                        obtain ⟨gr2, hgr2⟩ := Option.isSome_iff_exists.mp h9
                        simp only [e1, List.cons_append, hc, if_true, e2, e3, e4a, e4b,
                          if_neg hde, e5, e6, e7a, e7b, if_neg hne, e8, hgr2]
                        rfl
      case isFalse hc => simp at h

/-! Transfer of definition-match existence between a text and its
surrounding text. -/

theorem defSearchGo_isSome_pos : ∀ (l : List Char) (p q : Nat),
    (defSearchGo l p).isSome = (defSearchGo l q).isSome := by
  intro l
  induction l with
  | nil => intro p q; rfl
  | cons c cs ih =>
    intro p q
    cases hm : defMatchAt (c :: cs) with
    | some m => simp [defSearchGo, hm]
    | none =>
      simp only [defSearchGo, hm]
      exact ih (p + 1) (q + 1)

theorem defSearchGo_append (ext : List Char) : ∀ (cs : List Char) (p q : Nat),
    (defSearchGo cs p).isSome = true → (defSearchGo (cs ++ ext) q).isSome = true := by
  intro cs
  induction cs with
  | nil => intro p q h; simp [defSearchGo] at h
  | cons c cs ih =>
    intro p q h
    rw [List.cons_append]
    cases hm2 : defMatchAt (c :: (cs ++ ext)) with
    | some m => simp [defSearchGo, hm2]
    | none =>
      cases hm : defMatchAt (c :: cs) with
      | some m =>
        have hext := defMatchAt_extend ext (by rw [hm]; rfl :
          (defMatchAt (c :: cs)).isSome = true)
        simp only [List.cons_append, hm2] at hext
        simp at hext
      | none =>
        simp only [defSearchGo, hm2]
        simp only [defSearchGo, hm] at h
        exact ih (p + 1) (q + 1) h

theorem defSearchGo_prepend : ∀ (pre cs : List Char) (p q : Nat),
    (defSearchGo cs p).isSome = true → (defSearchGo (pre ++ cs) q).isSome = true := by
  intro pre
  induction pre with
  | nil =>
    intro cs p q h
    rw [List.nil_append, defSearchGo_isSome_pos cs q p]
    exact h
  | cons a pre ih =>
    intro cs p q h
    rw [List.cons_append]
    cases hm : defMatchAt (a :: (pre ++ cs)) with
    | some m => simp [defSearchGo, hm]
    | none =>
      simp only [defSearchGo, hm]
      exact ih cs p (q + 1) h

theorem defSearch_of_infix {w : List Char} (pre ext : List Char)
    (h : (defSearch w).isSome = true) :
    (defSearch (pre ++ (w ++ ext))).isSome = true :=
  defSearchGo_prepend pre (w ++ ext) 0 0 (defSearchGo_append ext w 0 0 h)

/-! Lines and joining. -/

theorem joinSep_cons_ne (sep : Char) (w : List Char) (ws : List (List Char)) (h : ws ≠ []) :
    joinSep sep (w :: ws) = w ++ sep :: joinSep sep ws := by
  cases ws with
  | nil => exact absurd rfl h
  | cons v ws2 => rfl

theorem splitNl_cons (c : Char) (cs : List Char) :
    splitNl (c :: cs) = if c = '\n' then [] :: splitNl cs
      else match splitNl cs with
        | [] => [[c]]
        | w :: ws => (c :: w) :: ws := rfl

theorem splitNl_ne_nil : ∀ cs : List Char, splitNl cs ≠ [] := by
  intro cs
  cases cs with
  | nil => simp [splitNl]
  | cons c cs =>
    by_cases h : c = '\n'
    · simp [splitNl_cons, h]
    · cases hs : splitNl cs with
      | nil => simp [splitNl_cons, h, hs]
      | cons w ws => simp [splitNl_cons, h, hs]

theorem joinSep_head_cons (sep c : Char) (w : List Char) (ws : List (List Char)) :
    joinSep sep ((c :: w) :: ws) = c :: joinSep sep (w :: ws) := by
  cases ws with
  | nil => rfl
  | cons v ws2 => rfl

theorem joinNl_splitNl : ∀ cs : List Char, joinNl (splitNl cs) = cs := by
  intro cs
  induction cs with
  | nil => rfl
  | cons c cs ih =>
    by_cases h : c = '\n'
    · subst h
      rw [splitNl_cons, if_pos rfl]
      show joinSep '\n' ([] :: splitNl cs) = '\n' :: cs
      rw [joinSep_cons_ne _ _ _ (splitNl_ne_nil cs), List.nil_append]
      have ih2 : joinSep '\n' (splitNl cs) = cs := ih
      rw [ih2]
    · rw [splitNl_cons, if_neg h]
      cases hs : splitNl cs with
      | nil => exact absurd hs (splitNl_ne_nil cs)
      | cons w ws =>
        show joinSep '\n' ((c :: w) :: ws) = c :: cs
        rw [joinSep_head_cons]
        rw [← hs]
        have ih2 : joinSep '\n' (splitNl cs) = cs := ih
        rw [ih2]

theorem joinSep_take_prefix (sep : Char) : ∀ (l : List (List Char)) (k : Nat),
    ∃ ext, joinSep sep l = joinSep sep (l.take k) ++ ext := by
  intro l
  induction l with
  | nil => intro k; exact ⟨[], by simp [joinSep]⟩
  | cons w rest ih =>
    intro k
    cases k with
    | zero => exact ⟨joinSep sep (w :: rest), by simp [joinSep]⟩
    | succ k =>
      cases rest with
      | nil => exact ⟨[], by simp⟩
      | cons v rest2 =>
        rw [List.take_succ_cons, joinSep_cons₂]
        cases k with
        | zero => exact ⟨sep :: joinSep sep (v :: rest2), by simp [joinSep]⟩
        | succ k2 =>
          obtain ⟨ext, he⟩ := ih (k2 + 1)
          refine ⟨ext, ?_⟩
          rw [List.take_succ_cons, joinSep_cons₂, he, List.take_succ_cons]
          simp [List.append_assoc]

theorem joinSep_append_right (sep : Char) : ∀ (a b : List (List Char)), b ≠ [] →
    ∃ pre, joinSep sep (a ++ b) = pre ++ joinSep sep b := by
  intro a
  induction a with
  | nil => intro b _; exact ⟨[], rfl⟩
  | cons w a2 ih =>
    intro b hb
    obtain ⟨pre, he⟩ := ih b hb
    have ha2b : a2 ++ b ≠ [] := by
      intro hx
      exact hb (List.append_eq_nil.mp hx).2
    refine ⟨w ++ sep :: pre, ?_⟩
    rw [List.cons_append, joinSep_cons_ne sep w (a2 ++ b) ha2b, he]
    simp [List.append_assoc]

theorem strat2Go_cons (lines : List (List Char)) (l : List Char)
    (rest : List (List Char)) (i : Nat) :
    strat2Go lines (l :: rest) i =
      if pyStrip l = litDashes then
        (if (defSearch (joinNl ((l :: rest).take 5))).isSome = true then
          some (pyRstrip (joinNl (lines.take i)))
        else strat2Go lines rest (i + 1))
      else strat2Go lines rest (i + 1) := rfl

theorem strat2Go_none (lines : List (List Char)) : ∀ (t : List (List Char)) (i : Nat),
    (∀ sub : List (List Char), sub <:+ t →
      (defSearch (joinNl (sub.take 5))).isSome = false) →
    strat2Go lines t i = none := by
  intro t
  induction t with
  | nil => intro i _; rfl
  | cons l rest ih =>
    intro i hsub
    rw [strat2Go_cons]
    have hrec := ih (i + 1) (fun sub hs => hsub sub (hs.trans (List.suffix_cons l rest)))
    by_cases hd : pyStrip l = litDashes
    · rw [if_pos hd, if_neg (by rw [hsub (l :: rest) (List.suffix_refl _)]; simp)]
      exact hrec
    · rw [if_neg hd]
      exact hrec

/-! The rewriting passes do nothing on a clean cell. -/

theorem update_citations_id {st : RefState} {i : Nat} {src : List Char}
    (h : (citSegs src).all (fun s => !csegIsCite s) = true) :
    update_citations_in_text st i src = src := by
  have h2 : (citSegs src).map (csegUpdate i st) = (citSegs src).map csegRender :=
    List.map_congr_left (fun s hs => by
      cases s with
      | lit c => rfl
      | cite m =>
        have := List.all_eq_true.mp h _ hs
        simp [csegIsCite] at this)
  have hu : update_citations_in_text st i src =
      ((citSegs src).map (csegUpdate i st)).flatten :=
    updateCitationsGo_eq_segs i st src.length src
  rw [hu, h2]
  exact citSegsGo_render src.length src

theorem remove_reference_section_id {src : List Char}
    (hsep : sepSearch src = none) (hdef : defSearch src = none) :
    remove_reference_section src = src := by
  have hs2 : strat2Go (splitNl src) (splitNl src) 0 = none := by
    apply strat2Go_none
    intro sub hsub
    cases sub with
    | nil => rfl
    | cons w subrest =>
      cases hws : (defSearch (joinNl ((w :: subrest).take 5))).isSome with
      | false => rfl
      | true =>
        exfalso
        obtain ⟨ext, hext⟩ := joinSep_take_prefix '\n' (w :: subrest) 5
        obtain ⟨prel, hprel⟩ := hsub
        obtain ⟨prec, hprec⟩ := joinSep_append_right '\n' prel (w :: subrest) (by simp)
        have hsrc : src = prec ++ (joinNl ((w :: subrest).take 5) ++ ext) := by
          calc src = joinNl (splitNl src) := (joinNl_splitNl src).symm
            _ = joinNl (prel ++ (w :: subrest)) := by rw [hprel]
            _ = prec ++ joinNl (w :: subrest) := hprec
            _ = prec ++ (joinNl ((w :: subrest).take 5) ++ ext) := by
                show prec ++ joinSep '\n' (w :: subrest) = _
                rw [hext]
                rfl
        have hsome : (defSearch src).isSome = true := by
          rw [hsrc]
          exact defSearch_of_infix prec ext hws
        rw [hdef] at hsome
        simp at hsome
  unfold remove_reference_section
  simp only [hsep, hs2, hdef]

/-! A clean document passes through process_notebook unchanged. -/

theorem cellClean_markdown {src : List Char} (h : cellClean (Cell.markdown src) = true) :
    (citSegs src).all (fun s => !csegIsCite s) = true ∧
    defSearch src = none ∧ sepSearch src = none := by
  simp only [cellClean, Bool.and_eq_true] at h
  refine ⟨h.1.1, ?_, ?_⟩
  · exact Option.isNone_iff_eq_none.mp h.1.2
  · exact Option.isNone_iff_eq_none.mp h.2

theorem extract_defs_empty {idx : Nat} {src : List Char} (h : defSearch src = none) :
    extract_defs idx src = [] := by
  unfold extract_defs
  simp only [extractDefsGo, h]

theorem cellDefs_clean {idx : Nat} {c : Cell} (h : cellClean c = true) :
    cellDefs idx c = [] := by
  cases c with
  | code src => rfl
  | markdown src =>
    show (buildDefDict (extract_defs idx src)).map Prod.snd = []
    rw [extract_defs_empty (cellClean_markdown h).2.1]
    rfl

theorem foldl_cells_nil : ∀ (l : List (Nat × Cell)) (st : RefState),
    (∀ ic ∈ l, cellDefs ic.1 ic.2 = []) →
    l.foldl (fun st ic => (cellDefs ic.1 ic.2).foldl processDef st) st = st := by
  intro l
  induction l with
  | nil => intro st _; rfl
  | cons ic l ih =>
    intro st h
    rw [List.foldl_cons, h ic (List.mem_cons_self ic l)]
    exact ih st (fun x hx => h x (List.mem_cons_of_mem ic hx))

theorem snd_mem_of_enumFrom : ∀ (l : List Cell) (n : Nat) (ic : Nat × Cell),
    ic ∈ l.enumFrom n → ic.2 ∈ l := by
  intro l
  induction l with
  | nil => intro n ic h; simp [List.enumFrom] at h
  | cons c l ih =>
    intro n ic h
    rw [show (c :: l).enumFrom n = (n, c) :: l.enumFrom (n + 1) from rfl] at h
    rcases List.mem_cons.mp h with h | h
    · rw [h]
      exact List.mem_cons_self c l
    · exact List.mem_cons_of_mem c (ih (n + 1) ic h)

theorem build_no_defs {cells : List Cell} (h : cells.all cellClean = true) :
    build_global_reference_map cells = initState := by
  unfold build_global_reference_map
  apply foldl_cells_nil
  intro ic hic
  exact cellDefs_clean (List.all_eq_true.mp h ic.2 (snd_mem_of_enumFrom cells 0 ic hic))

theorem enumFrom_map_eq_self (f : Nat × Cell → Cell) : ∀ (l : List Cell) (n : Nat),
    (∀ ic ∈ l.enumFrom n, f ic = ic.2) → (l.enumFrom n).map f = l := by
  intro l
  induction l with
  | nil => intro n _; rfl
  | cons c l ih =>
    intro n h
    rw [show (c :: l).enumFrom n = (n, c) :: l.enumFrom (n + 1) from rfl, List.map_cons,
      h (n, c) (List.mem_cons_self _ _), ih (n + 1) (fun ic hic => h ic
        (List.mem_cons_of_mem _ hic))]

/-- C6 counterexample: a document with no citation occurrence and no
definition, but containing the bare references separator, is not returned
unchanged: its only cell is truncated from the separator onward (no
trailing cell is appended, though). -/
theorem C6_counterexample :
    ((citSegs ("A\n---\n**Références :**\nB".data)).all (fun s => !csegIsCite s)) = true ∧
    defSearch ("A\n---\n**Références :**\nB".data) = none ∧
    process_notebook cexC6cells = [Cell.markdown ("A".data)] ∧
    process_notebook cexC6cells ≠ cexC6cells := by
  decide

/-- C6 amended: a document whose markdown cells contain no citation
occurrence, no definition, and no occurrence of the references-section
separator is returned unchanged by process_notebook, and no trailing
references cell is appended. -/
theorem C6_amended_roundtrip (cells : List Cell) (H : cells.all cellClean = true) :
    process_notebook cells = cells := by
  unfold process_notebook processCells
  rw [build_no_defs H, if_pos (show initState.global_order.isEmpty = true from rfl)]
  apply enumFrom_map_eq_self
  intro ic hic
  obtain ⟨idx, cell⟩ := ic
  cases cell with
  | code src => rfl
  | markdown src =>
    have hcl := cellClean_markdown
      (List.all_eq_true.mp H _ (snd_mem_of_enumFrom cells 0 _ hic))
    show Cell.markdown (process_markdown_cell initState idx src) = Cell.markdown src
    unfold process_markdown_cell
    rw [update_citations_id hcl.1, remove_reference_section_id hcl.2.2 hcl.2.1]

/-- C6 witness: a concrete clean document round-trips. -/
theorem C6_witness : process_notebook c6wcells = c6wcells :=
  C6_amended_roundtrip c6wcells (by decide)

end RefMgr
